import Mathlib

/-!
# Verification of the aoc-2025 puzzle solvers

A shallow embedding, in Lean 4, of the parts of the `aoc-2025` Rust
repository that the specification's claims are about:

* `day-one`: the `Counter` rotation state machine (`src/day-one/src/main.rs`);
* `day-seven`: the tachyon-beam evolution over a manifold grid
  (`src/day-seven/src/main.rs`);
* `day-eight`: the `CircuitManager` disjoint-set structure
  (`src/day-eight/src/main.rs`);
* `day-ten`: the GF(2) Gaussian elimination solver and the joltage DFS
  (`src/day-ten/src/main.rs`);
* `day-eleven`: the simple-path counting of `part_two`
  (`src/day-eleven/src/main.rs`);
* the common command-line `main` shape shared by every day.

Machine integers are embedded as `Nat`/`Int`, with explicit `% 2^w`
wrapping exactly where the Rust arithmetic can overflow its machine
width.  Fallible operations (Rust `panic!`/`unwrap`/`expect`) are
embedded as `Option`.  Each definition mirrors the corresponding Rust
item; doc comments name the source item being embedded.
-/

namespace DayOne

/-- Embeds `enum Rotation { Left(u16), Right(u16) }`.  The payload is a
`Nat` that is kept below `2^16` by the parser; wrapping conversions in
`Counter::rotate` are applied explicitly where the Rust code casts. -/
inductive Rotation where
  | left : Nat → Rotation
  | right : Nat → Rotation
deriving DecidableEq, Repr

/-- Embeds `struct Counter { val: u8, counter_pt_1: usize, counter_pt_2: usize }`. -/
structure Counter where
  val : Nat
  counterPt1 : Nat
  counterPt2 : Nat
deriving DecidableEq, Repr

/-- Embeds `impl Default for Counter` (val 50, both counters 0). -/
def Counter.default : Counter := ⟨50, 0, 0⟩

/-- The Rust cast `x as i16` applied to a `u16` value: wrapping
conversion into the signed range `[-2^15, 2^15)`. -/
def i16ofU16 (x : Nat) : Int :=
  let m := x % 65536
  if m < 32768 then (m : Int) else (m : Int) - 65536

/-- Wrapping of an integer into the `i16` range, as used for the release
semantics of `i16` subtraction (`self.val as i16 - *val as i16`). -/
def i16wrap (z : Int) : Int :=
  let m := z % 65536
  if m < 32768 then m else m - 65536

/-- `(int_val as f32 / 100_f32).abs().ceil() as usize` from
`Counter::rotate`.  For the values that reach it (`|int_val| < 2^15`)
the `f32` computation is exact: an `i16` is exactly representable in
`f32`, the division is correctly rounded and its result is never within
`2^-16` of a wrong integer, so the ceiling agrees with exact rational
ceiling.  We embed it as the exact ceiling division on `Nat`. -/
def ceilDiv100 (a : Nat) : Nat := (a + 99) / 100

/-- The `Rotation::Right` arm of `Counter::rotate`:
`self.val as u16 + *val` wraps at `2^16` (release semantics). -/
def Counter.rotateRight (c : Counter) (v : Nat) : Counter :=
  let intVal := (c.val + v) % 65536
  { c with
    val := intVal % 100
    counterPt2 := c.counterPt2 + intVal / 100 }

/-- The `Rotation::Left` arm of `Counter::rotate`: the `u16 → i16` cast
and the `i16` subtraction wrap into the `i16` range (release
semantics); the Rust `%` on `i16` is truncated division, `Int.tmod`.
`self.counter_pt_2 -= 1` is embedded as truncated `Nat` subtraction;
`rotateUnderflows` below reports exactly when that subtraction would
underflow `usize`. -/
def Counter.rotateLeft (c : Counter) (v : Nat) : Counter :=
  let prevVal := c.val
  let intVal := i16wrap ((c.val : Int) - i16ofU16 v)
  let moduloVal := Int.tmod intVal 100
  let c1 :=
    if moduloVal < 0 then
      { c with
        val := (moduloVal + 100).toNat
        counterPt2 := c.counterPt2 + ceilDiv100 intVal.natAbs }
    else
      { c with
        val := moduloVal.toNat
        counterPt2 := if moduloVal = 0 then c.counterPt2 + 1 else c.counterPt2 }
  if prevVal = 0 then { c1 with counterPt2 := c1.counterPt2 - 1 } else c1

/-- The trailing `if self.val == 0 { self.counter_pt_1 += 1; }` of
`Counter::rotate`. -/
def Counter.applyPt1 (c : Counter) : Counter :=
  if c.val = 0 then { c with counterPt1 := c.counterPt1 + 1 } else c

/-- Embeds `Counter::rotate` (see the three pieces above). -/
def Counter.rotate (c : Counter) (rot : Rotation) : Counter :=
  Counter.applyPt1 <|
    match rot with
    | .right v => c.rotateRight v
    | .left v => c.rotateLeft v

/-- `true` exactly when executing `Counter::rotate` from state `c` on
`rot` reaches the statement `self.counter_pt_2 -= 1` with
`counter_pt_2 == 0`, i.e. when the `usize` subtraction underflows. -/
def Counter.rotateUnderflows (c : Counter) (rot : Rotation) : Bool :=
  match rot with
  | .right _ => false
  | .left v =>
      if c.val = 0 then
        let intVal := i16wrap ((c.val : Int) - i16ofU16 v)
        let moduloVal := Int.tmod intVal 100
        let pt2AtSub :=
          if moduloVal < 0 then c.counterPt2 + ceilDiv100 intVal.natAbs
          else if moduloVal = 0 then c.counterPt2 + 1
          else c.counterPt2
        decide (pt2AtSub = 0)
      else false

/-- Embeds `part_one_internal`: fold `rotate` over the input from the
default counter and read `counter_pt_1`. -/
def partOneInternal (input : List Rotation) : Nat :=
  (input.foldl Counter.rotate Counter.default).counterPt1

/-- Embeds `part_two_internal`: fold `rotate` over the input from the
default counter and read `counter_pt_2`. -/
def partTwoInternal (input : List Rotation) : Nat :=
  (input.foldl Counter.rotate Counter.default).counterPt2

/-- Embeds `Rotation::from_line`: first character selects the
direction, the rest parses as `u16` (`None` embeds the parse/shape
panics). -/
def Rotation.fromLine (line : String) : Option Rotation :=
  match line.data with
  | [] => none
  | c :: rest =>
      match (String.mk rest).toNat? with
      | none => none
      | some v =>
          if v < 65536 then
            match c with
            | 'L' => some (.left v)
            | 'R' => some (.right v)
            | _ => none
          else none

/-- The fixed day-one sample rotation list
`L68, L30, R48, L5, R60, L55, L1, L99, R14, L82`. -/
def sampleInput : List Rotation :=
  [.left 68, .left 30, .right 48, .left 5, .right 60,
   .left 55, .left 1, .left 99, .right 14, .left 82]

/-- Folding `Counter::rotate` over a rotation list from the default
counter, as both `part_one_internal` and `part_two_internal` do. -/
def runRotations (rots : List Rotation) : Counter :=
  rots.foldl Counter.rotate Counter.default

/-- The `u16` payload of a rotation. -/
def rotAmount : Rotation → Nat
  | .left v => v
  | .right v => v

lemma i16wrap_eq_self {z : Int} (h1 : -32768 ≤ z) (h2 : z < 32768) :
    i16wrap z = z := by
  simp only [i16wrap]
  split <;> omega

lemma i16ofU16_of_le {v : Nat} (h : v ≤ 32767) : i16ofU16 v = (v : Int) := by
  simp only [i16ofU16]
  have hv : v % 65536 = v := Nat.mod_eq_of_lt (by omega)
  rw [hv]
  split <;> omega

lemma tmod100_lt (a : Int) : Int.tmod a 100 < 100 :=
  Int.tmod_lt_of_pos a (by norm_num)

lemma tmod100_of_nonneg {a : Int} (h : 0 ≤ a) : Int.tmod a 100 = a % 100 :=
  Int.tmod_eq_emod h (by norm_num)

lemma tmod100_of_neg {a : Int} (h : a < 0) : Int.tmod a 100 = -((-a) % 100) := by
  have h2 : Int.tmod (-a) 100 = -(Int.tmod a 100) := by
    rw [Int.tmod_def, Int.tmod_def, Int.neg_tdiv]; ring
  have h1 : Int.tmod (-a) 100 = (-a) % 100 :=
    Int.tmod_eq_emod (by omega) (by norm_num)
  omega

lemma applyPt1_val (c : Counter) : c.applyPt1.val = c.val := by
  simp only [Counter.applyPt1]; split <;> rfl

lemma applyPt1_pt2 (c : Counter) : c.applyPt1.counterPt2 = c.counterPt2 := by
  simp only [Counter.applyPt1]; split <;> rfl

lemma rotateLeft_val (c : Counter) (v : Nat) :
    (c.rotateLeft v).val =
      (if Int.tmod (i16wrap ((c.val : Int) - i16ofU16 v)) 100 < 0 then
        (Int.tmod (i16wrap ((c.val : Int) - i16ofU16 v)) 100 + 100).toNat
      else
        (Int.tmod (i16wrap ((c.val : Int) - i16ofU16 v)) 100).toNat) := by
  simp only [Counter.rotateLeft]
  split <;> split <;> rfl

lemma rotateLeft_pt2 (c : Counter) (v : Nat) :
    (c.rotateLeft v).counterPt2 =
      (if c.val = 0 then
        (if Int.tmod (i16wrap ((c.val : Int) - i16ofU16 v)) 100 < 0 then
          c.counterPt2 + ceilDiv100 (i16wrap ((c.val : Int) - i16ofU16 v)).natAbs
        else if Int.tmod (i16wrap ((c.val : Int) - i16ofU16 v)) 100 = 0 then
          c.counterPt2 + 1
        else c.counterPt2) - 1
      else
        (if Int.tmod (i16wrap ((c.val : Int) - i16ofU16 v)) 100 < 0 then
          c.counterPt2 + ceilDiv100 (i16wrap ((c.val : Int) - i16ofU16 v)).natAbs
        else if Int.tmod (i16wrap ((c.val : Int) - i16ofU16 v)) 100 = 0 then
          c.counterPt2 + 1
        else c.counterPt2)) := by
  simp only [Counter.rotateLeft]
  split_ifs <;> rfl

/-- `val` stays below 100 after any rotation, wrap or no wrap. -/
lemma rotate_val_lt (c : Counter) (rot : Rotation) :
    (c.rotate rot).val < 100 := by
  cases rot with
  | right v =>
      show (Counter.applyPt1 _).val < 100
      rw [applyPt1_val]
      simp only [Counter.rotateRight]
      omega
  | left v =>
      show (Counter.applyPt1 _).val < 100
      rw [applyPt1_val, rotateLeft_val]
      have hlt := tmod100_lt (i16wrap ((c.val : Int) - i16ofU16 v))
      split <;> omega

/-- The state invariant behind the no-underflow argument: whenever the
dial sits at zero the part-two counter has already been bumped. -/
def CounterInv (c : Counter) : Prop :=
  c.val < 100 ∧ (c.val = 0 → 1 ≤ c.counterPt2)

lemma counterInv_default : CounterInv Counter.default := by
  constructor <;> simp [Counter.default]

/-- One rotation with amount at most `32767` (so no `u16`/`i16`
wraparound can occur) preserves the invariant and never reaches the
`counter_pt_2 -= 1` statement with a zero counter. -/
lemma rotate_preserves (c : Counter) (rot : Rotation) (hinv : CounterInv c)
    (hb : rotAmount rot ≤ 32767) :
    CounterInv (c.rotate rot) ∧ c.rotateUnderflows rot = false := by
  obtain ⟨hval, hzero⟩ := hinv
  cases rot with
  | right v =>
      simp only [rotAmount] at hb
      have hint : (c.val + v) % 65536 = c.val + v := Nat.mod_eq_of_lt (by omega)
      refine ⟨⟨rotate_val_lt c _, ?_⟩, rfl⟩
      show (Counter.applyPt1 _).val = 0 → 1 ≤ (Counter.applyPt1 _).counterPt2
      rw [applyPt1_val, applyPt1_pt2]
      simp only [Counter.rotateRight, hint]
      intro hv0
      by_cases h0 : c.val + v = 0
      · have := hzero (by omega)
        omega
      · -- `(c.val + v) % 100 = 0` with `c.val + v > 0` forces a crossing
        omega
  | left v =>
      simp only [rotAmount] at hb
      have hw : i16ofU16 v = (v : Int) := i16ofU16_of_le hb
      have hiv : i16wrap ((c.val : Int) - i16ofU16 v) = (c.val : Int) - v := by
        rw [hw]; exact i16wrap_eq_self (by omega) (by omega)
      have hm : (0 ≤ (c.val : Int) - v →
            Int.tmod ((c.val : Int) - v) 100 = ((c.val : Int) - v) % 100) ∧
          ((c.val : Int) - v < 0 →
            Int.tmod ((c.val : Int) - v) 100 = -((v - c.val : Int) % 100)) := by
        constructor
        · intro h; exact tmod100_of_nonneg h
        · intro h; rw [tmod100_of_neg h]; congr 1; omega
      refine ⟨⟨rotate_val_lt c _, ?_⟩, ?_⟩
      · show (Counter.applyPt1 _).val = 0 → 1 ≤ (Counter.applyPt1 _).counterPt2
        rw [applyPt1_val, applyPt1_pt2, rotateLeft_val, rotateLeft_pt2, hiv]
        simp only [ceilDiv100]
        by_cases hc0 : c.val = 0
        · have := hzero hc0
          rcases lt_or_le ((c.val : Int) - v) 0 with hneg | hpos
          · have := hm.2 hneg
            split_ifs <;> omega
          · have := hm.1 hpos
            split_ifs <;> omega
        · rcases lt_or_le ((c.val : Int) - v) 0 with hneg | hpos
          · have := hm.2 hneg
            split_ifs <;> omega
          · have := hm.1 hpos
            split_ifs <;> omega
      · simp only [Counter.rotateUnderflows, hiv, ceilDiv100]
        by_cases hc0 : c.val = 0
        · have := hzero hc0
          rw [if_pos hc0]
          simp only [decide_eq_false_iff_not]
          rcases lt_or_le ((c.val : Int) - v) 0 with hneg | hpos
          · have := hm.2 hneg
            split_ifs <;> first | exact not_false | omega
          · have := hm.1 hpos
            split_ifs <;> first | exact not_false | omega
        · rw [if_neg hc0]

lemma runRotations_inv (rots : List Rotation)
    (hb : ∀ r ∈ rots, rotAmount r ≤ 32767) :
    CounterInv (runRotations rots) := by
  suffices h : ∀ c, CounterInv c → CounterInv (rots.foldl Counter.rotate c) by
    exact h _ counterInv_default
  induction rots with
  | nil => intro c hc; exact hc
  | cons r rs ih =>
      intro c hc
      simp only [List.foldl_cons]
      exact ih (fun x hx => hb x (List.mem_cons_of_mem _ hx)) _
        (rotate_preserves c r hc (hb r (List.mem_cons_self _ _))).1

lemma foldl_val_lt (rots : List Rotation) :
    (runRotations rots).val < 100 := by
  suffices h : ∀ c : Counter, c.val < 100 → (rots.foldl Counter.rotate c).val < 100 by
    exact h _ (by simp [Counter.default])
  induction rots with
  | nil => intro c hc; exact hc
  | cons r rs ih =>
      intro c hc
      simp only [List.foldl_cons]
      exact ih _ (rotate_val_lt c r)

end DayOne

/-- C9: the claim as stated is FALSE on the code under the wrapping
(release) semantics of the machine arithmetic in `Counter::rotate`:
after the two-rotation sequence `R65486, L32769` from the default
counter, the first rotation wraps `val as u16 + 65486` to `0` without
touching `counter_pt_2`, and the second starts at `val == 0`, takes the
non-negative/non-zero modulo branch (its `i16` cast wraps `32769` to
`-32767`), and executes `counter_pt_2 -= 1` with `counter_pt_2 == 0` —
the `usize` subtraction underflows. -/
theorem C9_counterexample_underflow :
    (DayOne.runRotations [.right 65486]).val = 0 ∧
    (DayOne.runRotations [.right 65486]).counterPt2 = 0 ∧
    (DayOne.runRotations [.right 65486]).rotateUnderflows (.left 32769) = true := by
  decide

/-- C9 (amended): starting from `Counter::default()` (`val = 50`, both
counters 0), after every sequence of `Counter::rotate` calls the field
`val` is strictly less than 100; and provided every rotation amount is
at most `32767` — so that no `u16` addition or `i16` cast/subtraction
in `rotate` wraps around — whenever the left-rotation branch executes
`self.counter_pt_2 -= 1`, `counter_pt_2` is at least 1 at that point,
so the `usize` subtraction never underflows. -/
theorem C9_amended_counter_safety (rots : List DayOne.Rotation) :
    (DayOne.runRotations rots).val < 100 ∧
    ((∀ r ∈ rots, DayOne.rotAmount r ≤ 32767) →
      ∀ pre r post, rots = pre ++ r :: post →
        (DayOne.runRotations pre).rotateUnderflows r = false) := by
  refine ⟨DayOne.foldl_val_lt rots, fun hb pre r post heq => ?_⟩
  have hpre : ∀ x ∈ pre, DayOne.rotAmount x ≤ 32767 := by
    intro x hx; exact hb x (by rw [heq]; exact List.mem_append_left _ hx)
  have hr : DayOne.rotAmount r ≤ 32767 := by
    exact hb r (by rw [heq]; exact List.mem_append_right _ (List.mem_cons_self _ _))
  exact (DayOne.rotate_preserves _ r (DayOne.runRotations_inv pre hpre) hr).2

/-- Witness for C9 (amended) at the concrete sequence `L50, L1`. -/
theorem C9_amended_witness :
    (DayOne.runRotations [.left 50, .left 1]).val < 100 ∧
    (DayOne.runRotations [.left 50]).rotateUnderflows (.left 1) = false :=
  ⟨(C9_amended_counter_safety [.left 50, .left 1]).1,
   (C9_amended_counter_safety [.left 50, .left 1]).2 (by decide)
     [.left 50] (.left 1) [] rfl⟩

namespace DaySeven

/-- Embeds `enum TachyonEntry { Start, Splitter, Open }`. -/
inductive TachyonEntry where
  | start : TachyonEntry
  | splitter : TachyonEntry
  | openSpot : TachyonEntry
deriving DecidableEq, Repr, Inhabited

/-- Embeds `struct TachyonManifold { inner, n_rows, n_cols }`. -/
structure TachyonManifold where
  inner : List (List TachyonEntry)
  nRows : Nat
  nCols : Nat
deriving DecidableEq, Repr

/-- Embeds `TachyonManifold::query_location`: bounds-check the offset
position and return the entry there.  The in-range `Vec` indexing is
embedded with a default (it is only reached when the bounds checks
pass, mirroring the Rust early returns). -/
def TachyonManifold.queryLocation (m : TachyonManifold) (idxR idxC : Nat)
    (offR offC : Int) : Option TachyonEntry :=
  let newRInt : Int := (idxR : Int) + offR
  if newRInt < 0 then none
  else
    let newR := newRInt.toNat
    if newR ≥ m.nRows then none
    else
      let newCInt : Int := (idxC : Int) + offC
      if newCInt < 0 then none
      else
        let newC := newCInt.toNat
        if newC ≥ m.nCols then none
        else some ((m.inner.getD newR []).getD newC default)

/-- Embeds `struct TachyonBeam { pos_r, pos_c }`. -/
structure TachyonBeam where
  posR : Nat
  posC : Nat
deriving DecidableEq, Repr

/-- Embeds `TachyonBeam::evolve`.  `none` embeds the
`panic!("This doesn't make sense")` on a `Start` entry below the beam;
in the splitter case, `(self.pos_c as isize - 1) as usize` is only
executed when the lower-left query succeeded, which forces
`pos_c ≥ 1`, so `Nat` subtraction is exact there. -/
def TachyonBeam.evolve (b : TachyonBeam) (m : TachyonManifold) :
    Option (List TachyonBeam) :=
  match m.queryLocation b.posR b.posC 1 0 with
  | none => some []
  | some e =>
      match e with
      | .start => none
      | .splitter =>
          if (m.queryLocation b.posR b.posC 1 (-1)).isSome then
            if (m.queryLocation b.posR b.posC 1 1).isSome then
              some [⟨b.posR + 1, b.posC - 1⟩, ⟨b.posR + 1, b.posC + 1⟩]
            else
              some [⟨b.posR + 1, b.posC - 1⟩]
          else some []
      | .openSpot => some [⟨b.posR + 1, b.posC⟩]

end DaySeven

/-- C10: for every manifold and every beam at `(r, c)` whose cell
directly below is a splitter, `TachyonBeam::evolve` emits the
lower-right beam `(r+1, c+1)` only when the lower-left cell
`(r+1, c-1)` is also in bounds; and for a beam in column `c = 0` above
a splitter, `evolve` returns the empty vector even when the lower-right
cell `(r+1, 1)` lies inside the manifold. -/
theorem C10_evolve_splitter_left_gate (m : DaySeven.TachyonManifold)
    (b : DaySeven.TachyonBeam)
    (hsplit : m.queryLocation b.posR b.posC 1 0 = some .splitter) :
    (∀ res, b.evolve m = some res →
      DaySeven.TachyonBeam.mk (b.posR + 1) (b.posC + 1) ∈ res →
      (m.queryLocation b.posR b.posC 1 (-1)).isSome = true) ∧
    (b.posC = 0 → (m.queryLocation b.posR b.posC 1 1).isSome = true →
      b.evolve m = some []) := by
  constructor
  · intro res hres hmem
    simp only [DaySeven.TachyonBeam.evolve, hsplit] at hres
    by_cases hleft : (m.queryLocation b.posR b.posC 1 (-1)).isSome = true
    · exact hleft
    · rw [if_neg hleft] at hres
      cases hres
      simp at hmem
  · intro hc0 _
    have hleft : m.queryLocation b.posR b.posC 1 (-1) = none := by
      simp only [DaySeven.TachyonManifold.queryLocation, hc0]
      split
      · rfl
      · split
        · rfl
        · norm_num
    simp only [DaySeven.TachyonBeam.evolve, hsplit, hleft, Option.isSome_none,
      Bool.false_eq_true, if_false]

/-- Witness for C10 on a concrete 2×2 manifold with a splitter at
`(1, 0)` and an in-bounds lower-right cell `(1, 1)`: the beam at
`(0, 0)` dies out. -/
theorem C10_evolve_splitter_left_gate_witness :
    DaySeven.TachyonBeam.evolve ⟨0, 0⟩
      ⟨[[.openSpot, .openSpot], [.splitter, .openSpot]], 2, 2⟩ = some [] :=
  (C10_evolve_splitter_left_gate
    ⟨[[.openSpot, .openSpot], [.splitter, .openSpot]], 2, 2⟩ ⟨0, 0⟩
    (by decide)).2 rfl (by decide)

namespace DayTen

/-- Embeds `struct Equation { row: u64, rhs: bool }`: one GF(2) equation
`row · x = rhs (mod 2)` over a bit-packed coefficient row.  `row` is a
`Nat`; for machines with at most 64 buttons every value the algorithm
produces stays below `2^64`, so `Nat` bit operations coincide with the
Rust `u64` ones. -/
structure Equation where
  row : Nat
  rhs : Bool
deriving DecidableEq, Repr, Inhabited

/-- Bit `i` of `a`, as an element of GF(2). -/
def bit2 (a i : Nat) : ZMod 2 := if a.testBit i then 1 else 0

/-- A `Bool` as an element of GF(2). -/
def bool2 (b : Bool) : ZMod 2 := if b then 1 else 0

/-- The GF(2) dot product of two bit-packed 64-bit vectors. -/
def dot2 (a x : Nat) : ZMod 2 := ∑ i ∈ Finset.range 64, bit2 a i * bit2 x i

/-- `x` satisfies the equation `e`: the semantics of `Equation`. -/
def eqSat (e : Equation) (x : Nat) : Prop := dot2 e.row x = bool2 e.rhs

instance (e : Equation) (x : Nat) : Decidable (eqSat e x) := by
  unfold eqSat; infer_instance

/-- `x` satisfies every equation of the system. -/
def SatL (eqs : List Equation) (x : Nat) : Prop := ∀ e ∈ eqs, eqSat e x

instance (eqs : List Equation) (x : Nat) : Decidable (SatL eqs x) := by
  unfold SatL; infer_instance

/-- `eqs[r].row ^= eqs[row].row; eqs[r].rhs ^= eqs[row].rhs`. -/
def eqXor (e f : Equation) : Equation := ⟨e.row ^^^ f.row, xor e.rhs f.rhs⟩

/-- `eqs.swap(row, pivot)` (both indices in bounds when used). -/
def listSwap (l : List Equation) (i j : Nat) : List Equation :=
  (l.set i (l.getD j default)).set j (l.getD i default)

/-- `(row..eqs.len()).find(|&r| (eqs[r].row >> col) & 1 == 1)`. -/
def findPivot (eqs : List Equation) (row col : Nat) : Option Nat :=
  (List.range' row (eqs.length - row)).find? fun r =>
    (eqs.getD r default).row.testBit col

/-- The mutable state of `Machine::gaussian_elim_gf2`'s elimination
loop: the equation list, the `pivot_col` bookkeeping and the current
pivot row. -/
structure ElimState where
  eqs : List Equation
  pivotCol : List (Option Nat)
  row : Nat
deriving Repr

/-- The inner elimination pass
`for r in 0..eqs.len() { if r != row && bit { eqs[r] ^= eqs[row] } }`,
with `pr` the (unchanged throughout) pivot row `eqs[row]` and the first
argument the index of the head of the remaining list. -/
def elimMap (pr : Equation) (col pivotRow : Nat) : Nat → List Equation → List Equation
  | _, [] => []
  | r, e :: rest =>
      (if r ≠ pivotRow ∧ e.row.testBit col then eqXor e pr else e) ::
        elimMap pr col pivotRow (r + 1) rest

/-- One iteration of the `for (col, item) in pivot_col.iter_mut().enumerate()`
loop of `gaussian_elim_gf2`. -/
def elimStep (st : ElimState) (col : Nat) : ElimState :=
  match findPivot st.eqs st.row col with
  | none => st
  | some p =>
      let eqs1 := listSwap st.eqs st.row p
      let pr := eqs1.getD st.row default
      let eqs2 := elimMap pr col st.row 0 eqs1
      ⟨eqs2, st.pivotCol.set col (some st.row), st.row + 1⟩

/-- The full elimination loop over the `n_buttons` columns. -/
def elimLoop (eqs : List Equation) (nButtons : Nat) : ElimState :=
  (List.range nButtons).foldl elimStep ⟨eqs, List.replicate nButtons none, 0⟩

/-- The particular-solution loop of `gaussian_elim_gf2`: set bit `col`
when `pivot_col[col] = Some(r)` and `eqs[r].rhs`. -/
def particularOf (st : ElimState) : Nat :=
  (List.range st.pivotCol.length).foldl
    (fun acc col =>
      match st.pivotCol.getD col none with
      | some r => if (st.eqs.getD r default).rhs then acc ||| (1 <<< col) else acc
      | none => acc) 0

/-- The nullspace-vector loop for one free column: start from the free
bit and set every pivot column whose pivot row has a 1 in `freeCol`. -/
def nullVecOf (st : ElimState) (freeCol : Nat) : Nat :=
  (List.range st.pivotCol.length).foldl
    (fun acc col =>
      match st.pivotCol.getD col none with
      | some r =>
          if (st.eqs.getD r default).row.testBit freeCol then acc ||| (1 <<< col)
          else acc
      | none => acc) (1 <<< freeCol)

/-- The nullspace basis: one vector per pivotless column. -/
def nullspaceOf (st : ElimState) : List Nat :=
  (List.range st.pivotCol.length).filterMap fun c =>
    if st.pivotCol.getD c none = none then some (nullVecOf st c) else none

/-- Embeds `Machine::gaussian_elim_gf2`.  Returns `none` exactly when
the eliminated system contains a row `0 = 1` (the `return None` of the
consistency check); otherwise the particular solution and the
nullspace basis. -/
def gaussianElimGF2 (eqs : List Equation) (nButtons : Nat) : Option (Nat × List Nat) :=
  let st := elimLoop eqs nButtons
  if st.eqs.any fun e => e.row == 0 && e.rhs then none
  else some (particularOf st, nullspaceOf st)

/-- `u64::count_ones()` for values below `2^64`. -/
def countOnes64 (x : Nat) : Nat :=
  ((List.range 64).filter fun i => x.testBit i).length

/-- The inner loop of the brute force in `find_min_button_presses`:
`for (i, nspace) in nullspace.iter().enumerate() { if (mask >> i) & 1 == 1 { x ^= nspace } }`,
with the first `Nat` the accumulated `x` and the second the index `i`. -/
def applyMask (mask : Nat) : Nat → Nat → List Nat → Nat
  | x, _, [] => x
  | x, i, v :: rest => applyMask mask (if mask.testBit i then x ^^^ v else x) (i + 1) rest

/-- The brute-force minimum of `find_min_button_presses`: the best
popcount over all `2^k` nullspace masks, seeded with the particular
solution's popcount. -/
def minPressesOf (particular : Nat) (nullspace : List Nat) : Nat :=
  (List.range (2 ^ nullspace.length)).foldl
    (fun best mask => min best (countOnes64 (applyMask mask particular 0 nullspace)))
    (countOnes64 particular)

/-- Embeds `enum LightStatus { On, Off }`. -/
inductive LightStatus where
  | on : LightStatus
  | off : LightStatus
deriving DecidableEq, Repr

/-- Embeds `impl From<char> for LightStatus`; `none` embeds the
`panic!("Not valid")` arm. -/
def LightStatus.fromChar : Char → Option LightStatus
  | '#' => some .on
  | '.' => some .off
  | _ => none

/-- Embeds `struct IndicatorLights { inner: Vec<LightStatus> }`. -/
structure IndicatorLights where
  inner : List LightStatus
deriving DecidableEq, Repr

/-- Embeds `struct Button { lights_affected: Vec<usize> }`. -/
structure Button where
  lightsAffected : List Nat
deriving DecidableEq, Repr

/-- Embeds `struct Machine`. -/
structure Machine where
  lightDiagram : IndicatorLights
  buttons : List Button
  joltageRequirements : List Nat
deriving DecidableEq, Repr

/-- The shared row-building loop of `build_equations` and
`build_joltage_equations`:
`for (j, button) in buttons.enumerate { if button.lights_affected.contains(&idx) { row |= 1 << j } }`,
with the first `Nat` the accumulated row and the second the index `j`. -/
def rowForLight (lightIdx : Nat) : Nat → Nat → List Button → Nat
  | row, _, [] => row
  | row, j, b :: rest =>
      rowForLight lightIdx
        (if lightIdx ∈ b.lightsAffected then row ||| (1 <<< j) else row) (j + 1) rest

/-- The enumerated map of `Machine::build_equations` (`Nat` argument is
the running light index). -/
def buildEquationsGo (buttons : List Button) : Nat → List LightStatus → List Equation
  | _, [] => []
  | i, s :: rest =>
      ⟨rowForLight i 0 0 buttons, s = .on⟩ :: buildEquationsGo buttons (i + 1) rest

/-- Embeds `Machine::build_equations`. -/
def buildEquations (m : Machine) : List Equation :=
  buildEquationsGo m.buttons 0 m.lightDiagram.inner

/-- The enumerated map of `Machine::build_joltage_equations`. -/
def buildJoltageEquationsGo (buttons : List Button) : Nat → List Nat → List (Nat × Nat)
  | _, [] => []
  | i, t :: rest =>
      (rowForLight i 0 0 buttons, t) :: buildJoltageEquationsGo buttons (i + 1) rest

/-- Embeds `Machine::build_joltage_equations`. -/
def buildJoltageEquations (m : Machine) : List (Nat × Nat) :=
  buildJoltageEquationsGo m.buttons 0 m.joltageRequirements

/-- Embeds `Machine::find_min_button_presses`; `none` embeds the
`expect("Machine has no solution")` panic. -/
def findMinButtonPresses (m : Machine) : Option Nat :=
  match gaussianElimGF2 (buildEquations m) m.buttons.length with
  | none => none
  | some (particular, nullspace) => some (minPressesOf particular nullspace)

/-- The equation check at the leaves of `Machine::dfs`:
`x.iter().enumerate().filter(|(j, _)| (row >> j) & 1 == 1).map(|(_, v)| *v).sum()`,
with the first `Nat` the index of the head of the remaining list. -/
def rowSum (row : Nat) : Nat → List Nat → Nat
  | _, [] => 0
  | j, v :: rest => (if row.testBit j then v else 0) + rowSum row (j + 1) rest

/-- `eqs.iter().all(|(row, rhs)| sum == *rhs)` at a DFS leaf. -/
def checkEqs (eqs : List (Nat × Nat)) (x : List Nat) : Bool :=
  eqs.all fun e => rowSum e.1 0 x == e.2

/-- The `for v in 0..=*best` loop of `Machine::dfs`.  `rec` is the
recursive call into the next index; the first `Nat` counts how many of
the (at loop entry) `best + 1` candidate values remain, the second is
the current `v`.  The break condition re-reads the current (possibly
improved) bound, exactly as the Rust loop does. -/
def vloop (rec : List Nat → Nat → Nat) (idx : Nat) : Nat → Nat → List Nat → Nat → Nat
  | 0, _, _, best => best
  | cnt + 1, v, x, best =>
      let x' := x.set idx v
      if best ≤ (x'.take (idx + 1)).sum then best
      else vloop rec idx cnt (v + 1) x' (rec x' best)

/-- Embeds `Machine::dfs`.  The extra fuel argument only bounds the
recursion depth: each nested call moves from `idx` to `idx + 1`, so any
fuel exceeding `x.length - idx` never runs out and the function equals
the Rust recursion (which terminates because `idx` reaches `x.len()`). -/
def dfs (eqs : List (Nat × Nat)) : Nat → Nat → List Nat → Nat → Nat
  | 0, _, _, best => best
  | fuel + 1, idx, x, best =>
      if idx = x.length then
        if checkEqs eqs x then min best x.sum else best
      else vloop (fun x' b => dfs eqs fuel (idx + 1) x' b) idx (best + 1) 0 x best

/-- Embeds `Machine::find_min_button_presses_pt_2`.  On the inputs
considered here all `u32` arithmetic stays far below `2^32`, so plain
`Nat` arithmetic is exact. -/
def findMinButtonPressesPt2 (m : Machine) : Nat :=
  let eqs := buildJoltageEquations m
  let nButtons := m.buttons.length
  let x := List.replicate nButtons 0
  let rhsMax := (eqs.map Prod.snd).foldr max 0
  let best := rhsMax * nButtons
  dfs eqs (nButtons + 1) 0 x best

/-- `str::trim` on a character list. -/
def trimChars (cs : List Char) : List Char :=
  ((cs.dropWhile Char.isWhitespace).reverse.dropWhile Char.isWhitespace).reverse

/-- `str::parse::<usize>` / `str::parse::<u32>` for the plain decimal
numerals appearing in the puzzle inputs (`none` embeds the parse
panic). -/
def parseNat (cs : List Char) : Option Nat :=
  if cs ≠ [] ∧ cs.all Char.isDigit then
    some (cs.foldl (fun acc c => acc * 10 + (c.toNat - '0'.toNat)) 0)
  else none

/-- `str::split_whitespace` on a character list (helper recursion;
the first argument accumulates the current token reversed). -/
def splitWsGo : List Char → List Char → List (List Char)
  | cur, [] => if cur = [] then [] else [cur.reverse]
  | cur, c :: rest =>
      if c.isWhitespace then
        if cur = [] then splitWsGo [] rest
        else cur.reverse :: splitWsGo [] rest
      else splitWsGo (c :: cur) rest

/-- `str::split_whitespace` on a character list. -/
def splitWs (cs : List Char) : List (List Char) := splitWsGo [] cs

/-- Embeds `Button::from_str`: strip the surrounding parentheses, split
on `,`, parse each index. -/
def Button.fromStr (s : List Char) : Option Button :=
  let cs := trimChars s
  if cs.length ≥ 2 then
    ((((cs.drop 1).take (cs.length - 2)).splitOn ',').mapM parseNat).map Button.mk
  else none

/-- Embeds `Machine::from_line`.  The Rust byte indices agree with
character indices because the inputs are ASCII. -/
def Machine.fromLine (s : List Char) : Option Machine := do
  let line := trimChars s
  let idxStart ← line.findIdx? (· = '[')
  let idxStop ← line.findIdx? (· = ']')
  let lights ← ((line.drop (idxStart + 1)).take (idxStop - (idxStart + 1))).mapM
    LightStatus.fromChar
  let braceIdx ← line.findIdx? (· = '{')
  let bStart := idxStop + 2
  let bStop := braceIdx - 2
  let buttons ← (splitWs ((line.drop bStart).take (bStop + 1 - bStart))).mapM
    Button.fromStr
  let jolts ← (((line.drop (bStop + 3)).take (line.length - 1 - (bStop + 3))).splitOn
    ',').mapM parseNat
  pure ⟨⟨lights⟩, buttons, jolts⟩

/-- Embeds day-ten `part_one` on the input text as a character list
(`str::lines` is splitting on `'\n'` for the trailing-newline-free
ASCII inputs used here); `none` embeds any parse or `expect` panic. -/
def partOne (s : List Char) : Option Nat :=
  (s.splitOn '\n').foldlM
    (fun acc line => do
      let m ← Machine.fromLine line
      let v ← findMinButtonPresses m
      pure (acc + v)) 0

/-- Embeds day-ten `part_two`. -/
def partTwo (s : List Char) : Option Nat :=
  (s.splitOn '\n').foldlM
    (fun acc line => do
      let m ← Machine.fromLine line
      pure (acc + findMinButtonPressesPt2 m)) 0

/-- The fixed day-ten sample input of three machine lines. -/
def sampleInput : List Char :=
  ("[.##.] (3) (1,3) (2) (2,3) (0,2) (0,1) {3,5,4,7}\n[...#.] (0,2,3,4) (2,3) (0,4) (0,1,2) (1,2,3,4) {7,5,12,7,2}\n[.###.#] (0,1,2,3,4) (0,3,4) (0,1,2,4,5) (1,2) {10,11,11,5,10,5}").data

end DayTen

namespace DayTen

lemma vloop_le (rec : List Nat → Nat → Nat) (hrec : ∀ x b, rec x b ≤ b)
    (idx : Nat) : ∀ cnt v x best, vloop rec idx cnt v x best ≤ best := by
  intro cnt
  induction cnt with
  | zero => intro v x best; exact le_refl _
  | succ cnt ih =>
      intro v x best
      simp only [vloop]
      split
      · exact le_refl _
      · exact le_trans (ih (v + 1) _ (rec (x.set idx v) best)) (hrec _ best)

/-- The DFS never worsens the incumbent bound. -/
lemma dfs_le (eqs : List (Nat × Nat)) :
    ∀ fuel idx x best, dfs eqs fuel idx x best ≤ best := by
  intro fuel
  induction fuel with
  | zero => intro idx x best; exact le_refl _
  | succ fuel ih =>
      intro idx x best
      simp only [dfs]
      split
      · split
        · exact min_le_left _ _
        · exact le_refl _
      · exact vloop_le _ (fun x' b => ih (idx + 1) x' b) idx (best + 1) 0 x best

lemma vloop_ge (L n : Nat) (rec : List Nat → Nat → Nat) (idx : Nat)
    (hrec : ∀ x' b, x'.length = n → L ≤ b → L ≤ rec x' b) :
    ∀ cnt v x best, x.length = n → L ≤ best → L ≤ vloop rec idx cnt v x best := by
  intro cnt
  induction cnt with
  | zero => intro v x best _ hb; exact hb
  | succ cnt ih =>
      intro v x best hlen hb
      simp only [vloop]
      split
      · exact hb
      · exact ih (v + 1) _ _ (by simpa using hlen) (hrec _ best (by simpa using hlen) hb)

/-- Soundness of the DFS: if every full assignment satisfying the
equations has sum at least `L`, and the incumbent is at least `L`, the
DFS result is at least `L`. -/
lemma dfs_ge (eqs : List (Nat × Nat)) (L n : Nat)
    (hy : ∀ y : List Nat, y.length = n → checkEqs eqs y = true → L ≤ y.sum) :
    ∀ fuel idx x best, x.length = n → L ≤ best → L ≤ dfs eqs fuel idx x best := by
  intro fuel
  induction fuel with
  | zero => intro idx x best _ hb; exact hb
  | succ fuel ih =>
      intro idx x best hlen hb
      simp only [dfs]
      split
      · split
        · next hchk => exact le_min hb (hy x hlen hchk)
        · exact hb
      · exact vloop_ge L n _ idx (fun x' b hl hbb => ih (idx + 1) x' b hl hbb)
          (best + 1) 0 x best hlen hb

lemma getD_set_self (x : List Nat) (idx v : Nat) (h : idx < x.length) :
    (x.set idx v).getD idx 0 = v := by
  rw [List.getD_eq_getElem _ _ (by simpa using h)]
  exact List.getElem_set_self _

lemma getD_set_ne (x : List Nat) (idx v j : Nat) (h : j ≠ idx) :
    (x.set idx v).getD j 0 = x.getD j 0 := by
  by_cases hj : j < x.length
  · rw [List.getD_eq_getElem _ _ (by simpa using hj), List.getD_eq_getElem _ _ hj]
    exact List.getElem_set_ne (fun he => h he.symm) _
  · rw [List.getD_eq_default _ _ (by simpa using Nat.le_of_not_lt hj),
      List.getD_eq_default _ _ (Nat.le_of_not_lt hj)]

lemma sum_take_le_sum_take :
    ∀ (k : Nat) (x y : List Nat), (∀ j, j < k → x.getD j 0 ≤ y.getD j 0) →
      k ≤ x.length → k ≤ y.length → (x.take k).sum ≤ (y.take k).sum := by
  intro k
  induction k with
  | zero => intro x y _ _ _; simp
  | succ k ih =>
      intro x y hpt hx hy
      match x, y with
      | a :: xs, b :: ys =>
          simp only [List.take_succ_cons, List.sum_cons]
          have h0 : a ≤ b := hpt 0 (Nat.succ_pos _)
          have hrest : (xs.take k).sum ≤ (ys.take k).sum := by
            refine ih xs ys (fun j hj => hpt (j + 1) (by omega)) ?_ ?_
            · simpa using hx
            · simpa using hy
          omega

lemma sum_take_le_sum (y : List Nat) (k : Nat) : (y.take k).sum ≤ y.sum := by
  have h := List.sum_take_add_sum_drop y k
  omega

lemma list_eq_of_getD (x y : List Nat) (hlen : x.length = y.length)
    (h : ∀ j, j < x.length → x.getD j 0 = y.getD j 0) : x = y := by
  apply List.ext_getElem hlen
  intro j hj hj'
  rw [← List.getD_eq_getElem x 0 hj, ← List.getD_eq_getElem y 0 hj']
  exact h j hj

/-- Completeness of the inner loop: if the current partial assignment
agrees with the satisfying assignment `y` below `idx` and the loop
still has `y`'s value at `idx` in range, the result is at most
`y.sum`. -/
lemma vloop_complete (y : List Nat) (n : Nat) (rec : List Nat → Nat → Nat)
    (idx : Nat) (hidx : idx < n) (hyn : y.length = n)
    (hrecle : ∀ x b, rec x b ≤ b)
    (hrec : ∀ x' b, x'.length = n → (∀ j, j < idx + 1 → x'.getD j 0 = y.getD j 0) →
      rec x' b ≤ y.sum) :
    ∀ cnt v x best, x.length = n →
      (∀ j, j < idx → x.getD j 0 = y.getD j 0) →
      v ≤ y.getD idx 0 → y.getD idx 0 < v + cnt →
      vloop rec idx cnt v x best ≤ y.sum := by
  intro cnt
  induction cnt with
  | zero => intro v x best _ _ hv hvc; omega
  | succ cnt ih =>
      intro v x best hlen hagree hv hvc
      simp only [vloop]
      have hlen' : (x.set idx v).length = n := by simpa using hlen
      split
      · next hbr =>
          -- the pruning fired: the incumbent is already at most `y.sum`
          have hpt : ∀ j, j < idx + 1 → (x.set idx v).getD j 0 ≤ y.getD j 0 := by
            intro j hj
            rcases Nat.lt_or_ge j idx with hj' | hj'
            · rw [getD_set_ne x idx v j (by omega), hagree j hj']
            · have hji : j = idx := by omega
              subst hji
              rw [getD_set_self x j v (by omega)]
              exact hv
          have h1 : ((x.set idx v).take (idx + 1)).sum ≤ (y.take (idx + 1)).sum :=
            sum_take_le_sum_take (idx + 1) _ y hpt (by omega) (by omega)
          have h2 := sum_take_le_sum y (idx + 1)
          omega
      · rcases Nat.lt_or_ge v (y.getD idx 0) with hvlt | hvge
        · -- not yet at y's value: keep looping
          refine ih (v + 1) (x.set idx v) (rec (x.set idx v) best) hlen' ?_ (by omega)
            (by omega)
          intro j hj
          rw [getD_set_ne x idx v j (by omega)]
          exact hagree j hj
        · -- v = y[idx]: recurse into the agreeing extension, then the
          -- tail of the loop can only improve on that result
          have hveq : v = y.getD idx 0 := by omega
          have hstep : rec (x.set idx v) best ≤ y.sum := by
            refine hrec _ best hlen' ?_
            intro j hj
            rcases Nat.lt_or_ge j idx with hj' | hj'
            · rw [getD_set_ne x idx v j (by omega)]
              exact hagree j hj'
            · have hji : j = idx := by omega
              subst hji
              rw [getD_set_self x j v (by omega)]
              exact hveq
          exact le_trans (vloop_le rec hrecle idx cnt (v + 1) _ _) hstep

/-- Completeness of the DFS: its result is at most the sum of any
satisfying assignment, provided the fuel exceeds the remaining
depth. -/
lemma dfs_complete (eqs : List (Nat × Nat)) (y : List Nat) (n : Nat)
    (hyn : y.length = n) (hchk : checkEqs eqs y = true) :
    ∀ fuel idx x best, x.length = n → idx ≤ n → n - idx < fuel →
      (∀ j, j < idx → x.getD j 0 = y.getD j 0) →
      dfs eqs fuel idx x best ≤ y.sum := by
  intro fuel
  induction fuel with
  | zero => intro idx x best _ _ hf _; omega
  | succ fuel ih =>
      intro idx x best hlen hle hf hagree
      simp only [dfs]
      split
      · next hidx =>
          have hxn : idx = n := by omega
          have hxy : x = y := by
            refine list_eq_of_getD x y (by omega) ?_
            intro j hj
            exact hagree j (by omega)
          subst hxy
          rw [hchk]
          simp
      · next hidx =>
          have hlt : idx < n := by
            rcases Nat.lt_or_ge idx n with h | h
            · exact h
            · exact absurd (by omega : idx = x.length) hidx
          rcases le_or_lt (y.getD idx 0) best with hyb | hyb
          · exact vloop_complete y n _ idx hlt hyn
              (fun x' b => dfs_le eqs fuel (idx + 1) x' b)
              (fun x' b hl ha => ih (idx + 1) x' b hl (by omega) (by omega) ha)
              (best + 1) 0 x best hlen hagree (Nat.zero_le _) (by omega)
          · -- y's own value exceeds the incumbent, so `best ≤ y.sum`
            have h1 : y.getD idx 0 ≤ y.sum := by
              have hmem : y.getD idx 0 ∈ y := by
                rw [List.getD_eq_getElem y 0 (by omega)]
                exact List.getElem_mem _
              exact List.single_le_sum (fun v _ => Nat.zero_le v) _ hmem
            have := vloop_le (fun x' b => dfs eqs fuel (idx + 1) x' b)
              (fun x' b => dfs_le eqs fuel (idx + 1) x' b) idx (best + 1) 0 x best
            omega

end DayTen

namespace DayTen

lemma exists_list_four (y : List Nat) (h : y.length = 4) :
    ∃ a b c d, y = [a, b, c, d] := by
  rcases y with _ | ⟨a, _ | ⟨b, _ | ⟨c, _ | ⟨d, _ | ⟨e, t⟩⟩⟩⟩⟩ <;>
    first
      | (exact ⟨_, _, _, _, rfl⟩)
      | simp_all

lemma exists_list_five (y : List Nat) (h : y.length = 5) :
    ∃ a b c d e, y = [a, b, c, d, e] := by
  rcases y with _ | ⟨a, _ | ⟨b, _ | ⟨c, _ | ⟨d, _ | ⟨e, _ | ⟨f, t⟩⟩⟩⟩⟩⟩ <;>
    first
      | (exact ⟨_, _, _, _, _, rfl⟩)
      | simp_all

lemma exists_list_six (y : List Nat) (h : y.length = 6) :
    ∃ a b c d e f, y = [a, b, c, d, e, f] := by
  rcases y with _ | ⟨a, _ | ⟨b, _ | ⟨c, _ | ⟨d, _ | ⟨e, _ | ⟨f, _ | ⟨g, t⟩⟩⟩⟩⟩⟩⟩ <;>
    first
      | (exact ⟨_, _, _, _, _, _, rfl⟩)
      | simp_all

/-- Every nonnegative integer solution of the first sample machine's
joltage system has total at least 10 (add the first and fourth
equations: `(e + f) + (a + b + d) = 10`). -/
lemma sample1_joltage_lb (y : List Nat) (hlen : y.length = 6)
    (hchk : checkEqs [(48, 3), (34, 5), (28, 4), (11, 7)] y = true) :
    10 ≤ y.sum := by
  obtain ⟨a, b, c, d, e, f, rfl⟩ := exists_list_six y hlen
  simp +decide [checkEqs, rowSum] at hchk
  simp only [List.sum_cons, List.sum_nil]
  omega

/-- Every nonnegative integer solution of the second sample machine's
joltage system has total at least 12 (its third equation alone). -/
lemma sample2_joltage_lb (y : List Nat) (hlen : y.length = 5)
    (hchk : checkEqs [(13, 7), (24, 5), (27, 12), (19, 7), (21, 2)] y = true) :
    12 ≤ y.sum := by
  obtain ⟨a, b, c, d, e, rfl⟩ := exists_list_five y hlen
  simp +decide [checkEqs, rowSum] at hchk
  simp only [List.sum_cons, List.sum_nil]
  omega

/-- Every nonnegative integer solution of the third sample machine's
joltage system has total at least 11 (its second equation alone). -/
lemma sample3_joltage_lb (y : List Nat) (hlen : y.length = 4)
    (hchk : checkEqs [(7, 10), (13, 11), (13, 11), (3, 5), (7, 10), (4, 5)] y = true) :
    11 ≤ y.sum := by
  obtain ⟨a, b, c, d, rfl⟩ := exists_list_four y hlen
  simp +decide [checkEqs, rowSum] at hchk
  simp only [List.sum_cons, List.sum_nil]
  omega

lemma sample1_dfs_value :
    dfs [(48, 3), (34, 5), (28, 4), (11, 7)] 7 0 [0, 0, 0, 0, 0, 0] 42 = 10 := by
  apply le_antisymm
  · have h := dfs_complete [(48, 3), (34, 5), (28, 4), (11, 7)] [1, 2, 0, 4, 0, 3] 6
      rfl (by decide) 7 0 [0, 0, 0, 0, 0, 0] 42 rfl (by omega) (by omega)
      (fun j hj => absurd hj (by omega))
    simpa using h
  · exact dfs_ge _ 10 6 sample1_joltage_lb 7 0 _ 42 rfl (by omega)

lemma sample2_dfs_value :
    dfs [(13, 7), (24, 5), (27, 12), (19, 7), (21, 2)] 6 0 [0, 0, 0, 0, 0] 60 = 12 := by
  apply le_antisymm
  · have h := dfs_complete [(13, 7), (24, 5), (27, 12), (19, 7), (21, 2)] [2, 5, 0, 5, 0] 5
      rfl (by decide) 6 0 [0, 0, 0, 0, 0] 60 rfl (by omega) (by omega)
      (fun j hj => absurd hj (by omega))
    simpa using h
  · exact dfs_ge _ 12 5 sample2_joltage_lb 6 0 _ 60 rfl (by omega)

lemma sample3_dfs_value :
    dfs [(7, 10), (13, 11), (13, 11), (3, 5), (7, 10), (4, 5)] 5 0 [0, 0, 0, 0] 44 = 11 := by
  apply le_antisymm
  · have h := dfs_complete [(7, 10), (13, 11), (13, 11), (3, 5), (7, 10), (4, 5)] [5, 0, 5, 1] 4
      rfl (by decide) 5 0 [0, 0, 0, 0] 44 rfl (by omega) (by omega)
      (fun j hj => absurd hj (by omega))
    simpa using h
  · exact dfs_ge _ 11 4 sample3_joltage_lb 5 0 _ 44 rfl (by omega)

/-- The first sample machine, as parsed by `Machine::from_line`. -/
def sampleMachine1 : Machine :=
  ⟨⟨[.off, .on, .on, .off]⟩,
   [⟨[3]⟩, ⟨[1, 3]⟩, ⟨[2]⟩, ⟨[2, 3]⟩, ⟨[0, 2]⟩, ⟨[0, 1]⟩],
   [3, 5, 4, 7]⟩

/-- The second sample machine. -/
def sampleMachine2 : Machine :=
  ⟨⟨[.off, .off, .off, .on, .off]⟩,
   [⟨[0, 2, 3, 4]⟩, ⟨[2, 3]⟩, ⟨[0, 4]⟩, ⟨[0, 1, 2]⟩, ⟨[1, 2, 3, 4]⟩],
   [7, 5, 12, 7, 2]⟩

/-- The third sample machine. -/
def sampleMachine3 : Machine :=
  ⟨⟨[.off, .on, .on, .on, .off, .on]⟩,
   [⟨[0, 1, 2, 3, 4]⟩, ⟨[0, 3, 4]⟩, ⟨[0, 1, 2, 4, 5]⟩, ⟨[1, 2]⟩],
   [10, 11, 11, 5, 10, 5]⟩

lemma sample1_pt2 : findMinButtonPressesPt2 sampleMachine1 = 10 := by
  have e1 : buildJoltageEquations sampleMachine1 = [(48, 3), (34, 5), (28, 4), (11, 7)] := by
    decide
  have e2 : sampleMachine1.buttons.length = 6 := by decide
  simp only [findMinButtonPressesPt2, e1, e2]
  exact sample1_dfs_value

lemma sample2_pt2 : findMinButtonPressesPt2 sampleMachine2 = 12 := by
  have e1 : buildJoltageEquations sampleMachine2 =
      [(13, 7), (24, 5), (27, 12), (19, 7), (21, 2)] := by decide
  have e2 : sampleMachine2.buttons.length = 5 := by decide
  simp only [findMinButtonPressesPt2, e1, e2]
  exact sample2_dfs_value

lemma sample3_pt2 : findMinButtonPressesPt2 sampleMachine3 = 11 := by
  have e1 : buildJoltageEquations sampleMachine3 =
      [(7, 10), (13, 11), (13, 11), (3, 5), (7, 10), (4, 5)] := by decide
  have e2 : sampleMachine3.buttons.length = 4 := by decide
  simp only [findMinButtonPressesPt2, e1, e2]
  exact sample3_dfs_value

end DayTen

namespace DayTen

/-- The three lines of the day-ten sample input. -/
def sampleLine1 : List Char := "[.##.] (3) (1,3) (2) (2,3) (0,2) (0,1) {3,5,4,7}".data

/-- Second sample line. -/
def sampleLine2 : List Char :=
  "[...#.] (0,2,3,4) (2,3) (0,4) (0,1,2) (1,2,3,4) {7,5,12,7,2}".data

/-- Third sample line. -/
def sampleLine3 : List Char :=
  "[.###.#] (0,1,2,3,4) (0,3,4) (0,1,2,4,5) (1,2) {10,11,11,5,10,5}".data

lemma sample_split :
    sampleInput.splitOn '\n' = [sampleLine1, sampleLine2, sampleLine3] := by
  decide

lemma fromLine1 : Machine.fromLine sampleLine1 = some sampleMachine1 := by decide

lemma fromLine2 : Machine.fromLine sampleLine2 = some sampleMachine2 := by decide

lemma fromLine3 : Machine.fromLine sampleLine3 = some sampleMachine3 := by decide

/-- Day-ten `part_two` on the sample input evaluates to 33
(10 + 12 + 11 over the three machines). -/
lemma partTwo_sample : partTwo sampleInput = some 33 := by
  simp only [partTwo, sample_split, List.foldlM_cons, List.foldlM_nil]
  rw [fromLine1, fromLine2, fromLine3]
  simp only [Option.bind_eq_bind, Option.some_bind, Option.pure_def]
  rw [sample1_pt2, sample2_pt2, sample3_pt2]

end DayTen

/-- C7: on the fixed day-ten sample input of three machine lines,
`part_one` returns exactly 7 and `part_two` returns exactly 33; on the
fixed day-one sample rotation list (L68, L30, R48, L5, R60, L55, L1,
L99, R14, L82), `part_one_internal` returns exactly 3 and
`part_two_internal` returns exactly 6. -/
theorem C7_sample_tests :
    DayTen.partOne DayTen.sampleInput = some 7 ∧
    DayTen.partTwo DayTen.sampleInput = some 33 ∧
    DayOne.partOneInternal DayOne.sampleInput = 3 ∧
    DayOne.partTwoInternal DayOne.sampleInput = 6 :=
  ⟨by decide, DayTen.partTwo_sample, by decide, by decide⟩

namespace DayTen

/-- The homogeneous companion of a system: same rows, zero right-hand
sides.  `A·v = 0` is `SatL (homog eqs) v`. -/
def homog (eqs : List Equation) : List Equation := eqs.map fun e => ⟨e.row, false⟩

lemma bit2_xor (a b i : Nat) : bit2 (a ^^^ b) i = bit2 a i + bit2 b i := by
  simp only [bit2, Nat.testBit_xor]
  cases ha : a.testBit i <;> cases hb : b.testBit i <;> simp <;> decide

lemma bit2_zero (i : Nat) : bit2 0 i = 0 := by
  simp [bit2]

lemma dot2_xor_left (a b x : Nat) : dot2 (a ^^^ b) x = dot2 a x + dot2 b x := by
  simp only [dot2, bit2_xor, add_mul]
  rw [Finset.sum_add_distrib]

lemma dot2_zero_left (x : Nat) : dot2 0 x = 0 := by
  simp [dot2, bit2_zero]

lemma bool2_xor (a b : Bool) : bool2 (xor a b) = bool2 a + bool2 b := by
  cases a <;> cases b <;> decide

lemma eqSat_eqXor_of (e f : Equation) (x : Nat) (h1 : eqSat e x) (h2 : eqSat f x) :
    eqSat (eqXor e f) x := by
  simp only [eqSat, eqXor] at *
  rw [dot2_xor_left, bool2_xor, h1, h2]

lemma eqSat_of_eqXor (e f : Equation) (x : Nat) (h1 : eqSat (eqXor e f) x)
    (h2 : eqSat f x) : eqSat e x := by
  simp only [eqSat, eqXor] at *
  rw [dot2_xor_left, bool2_xor, h2] at h1
  exact add_right_cancel h1

/-- `SatL` through positions (with the `getD` access the embedding
uses; the default is never read in range). -/
lemma satL_iff_getD (eqs : List Equation) (x : Nat) :
    SatL eqs x ↔ ∀ i, i < eqs.length → eqSat (eqs.getD i default) x := by
  constructor
  · intro h i hi
    rw [List.getD_eq_getElem eqs default hi]
    exact h _ (List.getElem_mem hi)
  · intro h e he
    obtain ⟨i, hi, rfl⟩ := List.getElem_of_mem he
    have := h i hi
    rwa [List.getD_eq_getElem eqs default hi] at this

lemma length_listSwap (l : List Equation) (i j : Nat) :
    (listSwap l i j).length = l.length := by
  simp [listSwap]

lemma getD_listSwap (l : List Equation) (i j k : Nat) (hi : i < l.length)
    (hj : j < l.length) :
    (listSwap l i j).getD k default =
      if k = j then l.getD i default
      else if k = i then l.getD j default
      else l.getD k default := by
  by_cases hk : k < l.length
  · rw [List.getD_eq_getElem _ default (by simp [listSwap]; omega)]
    simp only [listSwap]
    by_cases hkj : k = j
    · subst hkj
      rw [if_pos rfl, List.getElem_set_self, List.getD_eq_getElem _ _ hi]
    · rw [if_neg hkj, List.getElem_set_ne (fun h => hkj h.symm)]
      by_cases hki : k = i
      · subst hki
        rw [if_pos rfl, List.getElem_set_self, List.getD_eq_getElem _ _ hj]
      · rw [if_neg hki, List.getElem_set_ne (fun h => hki h.symm),
          List.getD_eq_getElem _ _ hk]
  · have hk' : l.length ≤ k := Nat.le_of_not_lt hk
    rw [List.getD_eq_default _ _ (by simp [listSwap]; omega),
      List.getD_eq_default _ _ hk', if_neg (by omega), if_neg (by omega)]

lemma satL_listSwap_iff (l : List Equation) (i j : Nat) (hi : i < l.length)
    (hj : j < l.length) (x : Nat) :
    SatL (listSwap l i j) x ↔ SatL l x := by
  rw [satL_iff_getD, satL_iff_getD]
  constructor
  · intro h k hk
    rcases eq_or_ne k i with rfl | hki
    · have := h j (by rw [length_listSwap]; omega)
      rwa [getD_listSwap l k j j hi hj, if_pos rfl] at this
    · rcases eq_or_ne k j with rfl | hkj
      · have := h i (by rw [length_listSwap]; omega)
        by_cases hij : i = k
        · subst hij; have h2 := h i (by rw [length_listSwap]; omega)
          rwa [getD_listSwap l i i i hi hi, if_pos rfl] at h2
        · rwa [getD_listSwap l i k i hi hj, if_neg hij, if_pos rfl] at this
      · have := h k (by rw [length_listSwap]; omega)
        rwa [getD_listSwap l i j k hi hj, if_neg hkj, if_neg hki] at this
  · intro h k hk
    rw [length_listSwap] at hk
    rw [getD_listSwap l i j k hi hj]
    by_cases hkj : k = j
    · rw [if_pos hkj]; exact h i hi
    · rw [if_neg hkj]
      by_cases hki : k = i
      · rw [if_pos hki]; exact h j hj
      · rw [if_neg hki]; exact h k hk

lemma length_elimMap (pr : Equation) (col prow : Nat) :
    ∀ (s : Nat) (l : List Equation), (elimMap pr col prow s l).length = l.length := by
  intro s l
  induction l generalizing s with
  | nil => rfl
  | cons e rest ih => simp [elimMap, ih]

lemma getD_elimMap (pr : Equation) (col prow : Nat) :
    ∀ (s : Nat) (l : List Equation) (k : Nat), k < l.length →
      (elimMap pr col prow s l).getD k default =
        if s + k ≠ prow ∧ ((l.getD k default).row.testBit col) = true then
          eqXor (l.getD k default) pr
        else l.getD k default := by
  intro s l
  induction l generalizing s with
  | nil => intro k hk; simp at hk
  | cons e rest ih =>
      intro k hk
      cases k with
      | zero => simp [elimMap]
      | succ k =>
          simp only [elimMap, List.getD_cons_succ]
          rw [ih (s + 1) k (by simpa using hk)]
          have : s + 1 + k = s + (k + 1) := by omega
          rw [this]

lemma dot2_xor_right (a x y : Nat) : dot2 a (x ^^^ y) = dot2 a x + dot2 a y := by
  simp only [dot2, bit2_xor, mul_add]
  rw [Finset.sum_add_distrib]

lemma dot2_zero_right (a : Nat) : dot2 a 0 = 0 := by
  simp [dot2, bit2_zero]

lemma bit2_inj {a b : Nat} {i j : Nat} (h : bit2 a i = bit2 b j) :
    a.testBit i = b.testBit j := by
  simp only [bit2] at h
  cases ha : a.testBit i <;> cases hb : b.testBit j <;> simp [ha, hb] at h <;> rfl

lemma testBit_of_ge {x n i : Nat} (hx : x < 2 ^ n) (hi : n ≤ i) :
    x.testBit i = false := by
  apply Nat.testBit_eq_false_of_lt
  calc x < 2 ^ n := hx
    _ ≤ 2 ^ i := Nat.pow_le_pow_right (by norm_num) hi

/-- A generic `getD`/`set` computation (indices need not be in range
when distinct). -/
lemma getD_set_gen {α : Type} (l : List α) (i k : Nat) (a d : α)
    (hi : i < l.length) :
    (l.set i a).getD k d = if k = i then a else l.getD k d := by
  by_cases hk : k < l.length
  · rw [List.getD_eq_getElem _ d (by simpa using hk)]
    by_cases hki : k = i
    · subst hki
      rw [if_pos rfl, List.getElem_set_self]
    · rw [if_neg hki, List.getElem_set_ne (fun h => hki h.symm),
        List.getD_eq_getElem _ _ hk]
  · have hk' : l.length ≤ k := Nat.le_of_not_lt hk
    rw [List.getD_eq_default _ _ (by simpa using hk'),
      List.getD_eq_default _ _ hk', if_neg (by omega)]

lemma findPivot_none {eqs : List Equation} {row col : Nat}
    (h : findPivot eqs row col = none) :
    ∀ r, row ≤ r → r < eqs.length →
      ((eqs.getD r default).row.testBit col) = false := by
  intro r hr1 hr2
  rw [findPivot, List.find?_eq_none] at h
  have hmem : r ∈ List.range' row (eqs.length - row) := by
    rw [List.mem_range']
    exact ⟨r - row, by omega, by omega⟩
  simpa using h r hmem

lemma findPivot_some {eqs : List Equation} {row col p : Nat}
    (h : findPivot eqs row col = some p) :
    row ≤ p ∧ p < eqs.length ∧ ((eqs.getD p default).row.testBit col) = true := by
  have hp := List.find?_some h
  have hmem := List.mem_of_find?_eq_some h
  rw [List.mem_range'] at hmem
  obtain ⟨i, hi, rfl⟩ := hmem
  exact ⟨by omega, by omega, hp⟩

lemma length_homog (eqs : List Equation) : (homog eqs).length = eqs.length := by
  simp [homog]

lemma getD_homog (eqs : List Equation) (k : Nat) :
    (homog eqs).getD k default = ⟨(eqs.getD k default).row, false⟩ := by
  by_cases hk : k < eqs.length
  · rw [List.getD_eq_getElem _ _ (by simpa [homog] using hk),
      List.getD_eq_getElem _ _ hk]
    simp [homog]
  · have hk' := Nat.le_of_not_lt hk
    rw [List.getD_eq_default _ _ (by simpa [homog] using hk'),
      List.getD_eq_default _ _ hk']
    rfl

lemma homog_set (l : List Equation) (i : Nat) (e : Equation) :
    homog (l.set i e) = (homog l).set i ⟨e.row, false⟩ := by
  simp [homog, List.map_set]

lemma homog_listSwap (l : List Equation) (i j : Nat) :
    homog (listSwap l i j) = listSwap (homog l) i j := by
  simp only [listSwap, homog_set, getD_homog]

lemma homog_elimMap (pr : Equation) (col prow : Nat) :
    ∀ (s : Nat) (l : List Equation),
      homog (elimMap pr col prow s l) =
        elimMap ⟨pr.row, false⟩ col prow s (homog l) := by
  intro s l
  induction l generalizing s with
  | nil => rfl
  | cons e rest ih =>
      simp only [elimMap, homog, List.map_cons] at *
      congr 1
      · by_cases hc : s ≠ prow ∧ (e.row.testBit col) = true
        · rw [if_pos hc, if_pos hc]
          simp [eqXor]
        · rw [if_neg hc, if_neg hc]
      · exact ih (s + 1)

/-- The elimination pass preserves the solution set: the pivot row is
kept unchanged, and adding it to another row is invertible. -/
lemma satL_elimMap_iff (eqs1 : List Equation) (col row : Nat)
    (hrow : row < eqs1.length) (x : Nat) :
    SatL (elimMap (eqs1.getD row default) col row 0 eqs1) x ↔ SatL eqs1 x := by
  rw [satL_iff_getD, satL_iff_getD, length_elimMap]
  constructor
  · intro h k hk
    have hpr : eqSat (eqs1.getD row default) x := by
      have := h row hrow
      rw [getD_elimMap _ _ _ 0 _ row hrow] at this
      simpa using this
    have hk' := h k hk
    rw [getD_elimMap _ _ _ 0 _ k hk] at hk'
    by_cases hc : 0 + k ≠ row ∧ ((eqs1.getD k default).row.testBit col) = true
    · rw [if_pos hc] at hk'
      exact eqSat_of_eqXor _ _ x hk' hpr
    · rwa [if_neg hc] at hk'
  · intro h k hk
    rw [getD_elimMap _ _ _ 0 _ k hk]
    by_cases hc : 0 + k ≠ row ∧ ((eqs1.getD k default).row.testBit col) = true
    · rw [if_pos hc]
      exact eqSat_eqXor_of _ _ x (h k hk) (h row hrow)
    · rw [if_neg hc]
      exact h k hk

/-- The loop invariant of `gaussian_elim_gf2` after the columns below
`c` have been processed: lengths are stable, row operations have
preserved both the inhomogeneous and the homogeneous solution sets,
every recorded pivot `(c', r)` has a 1 in its column and is the only
row with a 1 there, pivotless processed columns are zero on all rows
from `st.row` down, pivots are injective and exhaust the rows below
`st.row`, and all rows stay below `2^n`. -/
structure ElimInv (n : Nat) (orig : List Equation) (c : Nat) (st : ElimState) : Prop where
  len_eqs : st.eqs.length = orig.length
  len_piv : st.pivotCol.length = n
  row_le : st.row ≤ orig.length
  bounded : ∀ k, k < orig.length → (st.eqs.getD k default).row < 2 ^ n
  sat_iff : ∀ x, SatL orig x ↔ SatL st.eqs x
  hom_iff : ∀ x, SatL (homog orig) x ↔ SatL (homog st.eqs) x
  piv_none_ge : ∀ c', c ≤ c' → c' < n → st.pivotCol.getD c' none = none
  piv_some : ∀ c' r, c' < n → st.pivotCol.getD c' none = some r → c' < c ∧ r < st.row
  piv_bit : ∀ c' r, c' < n → st.pivotCol.getD c' none = some r →
    ((st.eqs.getD r default).row.testBit c') = true
  piv_unique : ∀ c' r, c' < n → st.pivotCol.getD c' none = some r →
    ∀ r', r' < orig.length → r' ≠ r → ((st.eqs.getD r' default).row.testBit c') = false
  none_bit : ∀ c', c' < c → c' < n → st.pivotCol.getD c' none = none →
    ∀ r', st.row ≤ r' → r' < orig.length →
      ((st.eqs.getD r' default).row.testBit c') = false
  piv_inj : ∀ c1 c2 r, c1 < n → c2 < n → st.pivotCol.getD c1 none = some r →
    st.pivotCol.getD c2 none = some r → c1 = c2
  row_surj : ∀ r, r < st.row → ∃ c', c' < n ∧ st.pivotCol.getD c' none = some r

lemma getD_replicate_none (n i : Nat) :
    (List.replicate n (none : Option Nat)).getD i none = none := by
  by_cases hi : i < n
  · rw [List.getD_eq_getElem _ _ (by simpa using hi)]
    simp
  · rw [List.getD_eq_default _ _ (by simpa using Nat.le_of_not_lt hi)]

lemma elimInv_build (n : Nat) (orig : List Equation) (c : Nat)
    (E : List Equation) (P : List (Option Nat)) (R : Nat)
    (len_eqs : E.length = orig.length)
    (len_piv : P.length = n)
    (row_le : R ≤ orig.length)
    (bounded : ∀ k, k < orig.length → (E.getD k default).row < 2 ^ n)
    (sat_iff : ∀ x, SatL orig x ↔ SatL E x)
    (hom_iff : ∀ x, SatL (homog orig) x ↔ SatL (homog E) x)
    (piv_none_ge : ∀ c', c ≤ c' → c' < n → P.getD c' none = none)
    (piv_some : ∀ c' r, c' < n → P.getD c' none = some r → c' < c ∧ r < R)
    (piv_bit : ∀ c' r, c' < n → P.getD c' none = some r →
      ((E.getD r default).row.testBit c') = true)
    (piv_unique : ∀ c' r, c' < n → P.getD c' none = some r →
      ∀ r', r' < orig.length → r' ≠ r → ((E.getD r' default).row.testBit c') = false)
    (none_bit : ∀ c', c' < c → c' < n → P.getD c' none = none →
      ∀ r', R ≤ r' → r' < orig.length → ((E.getD r' default).row.testBit c') = false)
    (piv_inj : ∀ c1 c2 r, c1 < n → c2 < n → P.getD c1 none = some r →
      P.getD c2 none = some r → c1 = c2)
    (row_surj : ∀ r, r < R → ∃ c', c' < n ∧ P.getD c' none = some r) :
    ElimInv n orig c ⟨E, P, R⟩ :=
  ⟨len_eqs, len_piv, row_le, bounded, sat_iff, hom_iff, piv_none_ge, piv_some,
    piv_bit, piv_unique, none_bit, piv_inj, row_surj⟩

lemma elimInv_init (n : Nat) (eqs : List Equation)
    (hb : ∀ k, k < eqs.length → (eqs.getD k default).row < 2 ^ n) :
    ElimInv n eqs 0 ⟨eqs, List.replicate n none, 0⟩ where
  len_eqs := rfl
  len_piv := by simp
  row_le := Nat.zero_le _
  bounded := hb
  sat_iff := fun _ => Iff.rfl
  hom_iff := fun _ => Iff.rfl
  piv_none_ge := fun c' _ _ => getD_replicate_none n c'
  piv_some := fun c' r _ h => by rw [getD_replicate_none] at h; cases h
  piv_bit := fun c' r _ h => by rw [getD_replicate_none] at h; cases h
  piv_unique := fun c' r _ h => by rw [getD_replicate_none] at h; cases h
  none_bit := fun c' h => by omega
  piv_inj := fun c1 c2 r _ _ h => by rw [getD_replicate_none] at h; cases h
  row_surj := fun r h => by simp at h

lemma elimStep_inv {n : Nat} {orig : List Equation} {c : Nat} {st : ElimState}
    (hc : c < n) (hinv : ElimInv n orig c st) :
    ElimInv n orig (c + 1) (elimStep st c) := by
  obtain ⟨hlen, hpiv, hrle, hbdd, hsat, hhom, hng, hps, hpb, hpu, hnb, hpi, hrs⟩ := hinv
  cases hfp : findPivot st.eqs st.row c with
  | none =>
      have hnone := findPivot_none hfp
      rw [elimStep, hfp]
      exact {
        len_eqs := hlen
        len_piv := hpiv
        row_le := hrle
        bounded := hbdd
        sat_iff := hsat
        hom_iff := hhom
        piv_none_ge := fun c' h1 h2 => hng c' (by omega) h2
        piv_some := fun c' r h1 h2 => by
          have := hps c' r h1 h2; exact ⟨by omega, this.2⟩
        piv_bit := hpb
        piv_unique := hpu
        none_bit := fun c' h1 h2 h3 r' hr1 hr2 => by
          rcases Nat.lt_or_ge c' c with h | h
          · exact hnb c' h h2 h3 r' hr1 hr2
          · have hcc : c' = c := by omega
            subst hcc
            exact hnone r' hr1 (by omega)
        piv_inj := hpi
        row_surj := hrs }
  | some p =>
      obtain ⟨hrp, hple, hpbit⟩ := findPivot_some hfp
      have hplen : p < orig.length := by omega
      have hrowlt : st.row < orig.length := by omega
      have hstate : elimStep st c =
          ⟨elimMap ((listSwap st.eqs st.row p).getD st.row default) c st.row 0
              (listSwap st.eqs st.row p),
            st.pivotCol.set c (some st.row), st.row + 1⟩ := by
        simp only [elimStep, hfp]
      rw [hstate]
      set eqs1 := listSwap st.eqs st.row p with heqs1
      set pr := eqs1.getD st.row default with hprdef
      have hgeq1 : ∀ k, eqs1.getD k default =
          if k = p then st.eqs.getD st.row default
          else if k = st.row then st.eqs.getD p default
          else st.eqs.getD k default := fun k =>
        getD_listSwap st.eqs st.row p k (by omega) (by omega)
      have hpr : pr = st.eqs.getD p default := by
        rw [hprdef, hgeq1 st.row]
        rcases eq_or_ne st.row p with h | h
        · rw [if_pos h, h]
        · rw [if_neg h, if_pos rfl]
      have hlen1 : eqs1.length = orig.length := by
        rw [heqs1, length_listSwap]; exact hlen
      have hgeq2 : ∀ k, k < orig.length →
          (elimMap pr c st.row 0 eqs1).getD k default =
            if k ≠ st.row ∧ ((eqs1.getD k default).row.testBit c) = true then
              eqXor (eqs1.getD k default) pr
            else eqs1.getD k default := by
        intro k hk
        rw [getD_elimMap _ _ _ 0 _ k (by omega : k < eqs1.length)]
        simp only [Nat.zero_add]
      have hlen2 : (elimMap pr c st.row 0 eqs1).length = orig.length := by
        rw [length_elimMap]; exact hlen1
      have hprbit : pr.row.testBit c = true := by rw [hpr]; exact hpbit
      have hswap_lo : ∀ k, k < st.row → eqs1.getD k default = st.eqs.getD k default := by
        intro k hk
        rw [hgeq1 k, if_neg (by omega), if_neg (by omega)]
      -- the two swapped slots both lie at indices ≥ st.row
      have hswap_hi : ∀ k, st.row ≤ k → k < orig.length →
          ∃ k', st.row ≤ k' ∧ k' < orig.length ∧
            eqs1.getD k default = st.eqs.getD k' default := by
        intro k hk1 hk2
        rw [hgeq1 k]
        rcases eq_or_ne k p with h | h
        · rw [if_pos h]; exact ⟨st.row, le_refl _, hrowlt, rfl⟩
        · rw [if_neg h]
          rcases eq_or_ne k st.row with h2 | h2
          · rw [if_pos h2]; exact ⟨p, hrp, hplen, rfl⟩
          · rw [if_neg h2]; exact ⟨k, hk1, hk2, rfl⟩
      have hpr_oldpiv : ∀ c' r', c' < n → st.pivotCol.getD c' none = some r' →
          pr.row.testBit c' = false := by
        intro c' r' hc' hsome
        have hr' := (hps c' r' hc' hsome).2
        rw [hpr]
        exact hpu c' r' hc' hsome p hplen (by omega)
      have hpr_nonefree : ∀ c', c' < c → c' < n →
          st.pivotCol.getD c' none = none → pr.row.testBit c' = false := by
        intro c' h1 h2 h3
        rw [hpr]
        exact hnb c' h1 h2 h3 p hrp hplen
      have hsetpiv : ∀ c', (st.pivotCol.set c (some st.row)).getD c' none =
          if c' = c then some st.row else st.pivotCol.getD c' none := by
        intro c'
        exact getD_set_gen st.pivotCol c c' (some st.row) none (by omega)
      refine elimInv_build n orig (c + 1) _ _ _ hlen2
        (by rw [List.length_set]; exact hpiv) (by omega) ?_ ?_ ?_ ?_ ?_ ?_ ?_ ?_ ?_ ?_
      · -- bounded
        intro k hk
        rw [hgeq2 k hk]
        have hb1 : (eqs1.getD k default).row < 2 ^ n := by
          rw [hgeq1 k]
          rcases eq_or_ne k p with h | h
          · rw [if_pos h]; exact hbdd _ hrowlt
          · rw [if_neg h]
            rcases eq_or_ne k st.row with h2 | h2
            · rw [if_pos h2]; exact hbdd _ hplen
            · rw [if_neg h2]; exact hbdd _ hk
        have hbpr : pr.row < 2 ^ n := by rw [hpr]; exact hbdd _ hplen
        split
        · exact Nat.xor_lt_two_pow hb1 hbpr
        · exact hb1
      · -- sat_iff
        intro x
        rw [hsat x, ← satL_listSwap_iff st.eqs st.row p (by omega) (by omega) x]
        exact (satL_elimMap_iff eqs1 c st.row (by omega) x).symm
      · -- hom_iff
        intro x
        rw [hhom x,
          ← satL_listSwap_iff (homog st.eqs) st.row p (by rw [length_homog]; omega)
            (by rw [length_homog]; omega) x, ← homog_listSwap]
        have hh : homog (elimMap pr c st.row 0 eqs1) =
            elimMap ((homog eqs1).getD st.row default) c st.row 0 (homog eqs1) := by
          rw [homog_elimMap, getD_homog]
        rw [hh]
        exact (satL_elimMap_iff (homog eqs1) c st.row
          (by rw [length_homog]; omega) x).symm
      · -- piv_none_ge
        intro c' h1 h2
        rw [hsetpiv c', if_neg (by omega)]
        exact hng c' (by omega) h2
      · -- piv_some
        intro c' r hc' hsome
        rw [hsetpiv c'] at hsome
        rcases eq_or_ne c' c with h | h
        · rw [if_pos h] at hsome
          cases hsome
          exact ⟨by omega, by omega⟩
        · rw [if_neg h] at hsome
          have := hps c' r hc' hsome
          exact ⟨by omega, by omega⟩
      · -- piv_bit
        intro c' r hc' hsome
        rw [hsetpiv c'] at hsome
        rcases eq_or_ne c' c with h | h
        · rw [if_pos h] at hsome
          cases hsome
          subst h
          rw [hgeq2 st.row hrowlt, if_neg (by simp)]
          exact hprbit
        · rw [if_neg h] at hsome
          obtain ⟨hcc, hrr⟩ := hps c' r hc' hsome
          have hbase : eqs1.getD r default = st.eqs.getD r default := hswap_lo r hrr
          rw [hgeq2 r (by omega)]
          split
          · next hcond =>
              simp only [eqXor, Nat.testBit_xor, hbase,
                hpb c' r hc' hsome, hpr_oldpiv c' r hc' hsome]
              rfl
          · rw [hbase]
            exact hpb c' r hc' hsome
      · -- piv_unique
        intro c' r hc' hsome r' hr'len hne
        rw [hsetpiv c'] at hsome
        rcases eq_or_ne c' c with h | h
        · rw [if_pos h] at hsome
          cases hsome
          subst h
          rw [hgeq2 r' hr'len]
          split
          · next hcond =>
              simp only [eqXor, Nat.testBit_xor, hcond.2, hprbit]
              rfl
          · next hcond =>
              by_cases hbit : ((eqs1.getD r' default).row.testBit c') = true
              · exact absurd ⟨hne, hbit⟩ hcond
              · simpa using hbit
        · rw [if_neg h] at hsome
          obtain ⟨hcc, hrr⟩ := hps c' r hc' hsome
          have hprc' : pr.row.testBit c' = false := hpr_oldpiv c' r hc' hsome
          have hbase : (eqs1.getD r' default).row.testBit c' = false := by
            rcases eq_or_ne r' st.row with h2 | h2
            · subst h2
              have : eqs1.getD st.row default = pr := hprdef.symm
              rw [this]
              exact hprc'
            · rcases eq_or_ne r' p with h3 | h3
              · subst h3
                rw [hgeq1 r', if_pos rfl]
                exact hpu c' r hc' hsome st.row hrowlt (by omega)
              · rw [hgeq1 r', if_neg h3, if_neg h2]
                exact hpu c' r hc' hsome r' hr'len hne
          rw [hgeq2 r' hr'len]
          split
          · simp only [eqXor, Nat.testBit_xor, hbase, hprc']
            rfl
          · exact hbase
      · -- none_bit
        intro c' h1 h2 h3 r' hr1 hr2
        rw [hsetpiv c'] at h3
        rcases eq_or_ne c' c with h | h
        · rw [if_pos h] at h3; cases h3
        · rw [if_neg h] at h3
          have hcc : c' < c := by omega
          have hprc' : pr.row.testBit c' = false := hpr_nonefree c' hcc h2 h3
          have hbase : (eqs1.getD r' default).row.testBit c' = false := by
            obtain ⟨k', hk1, hk2, hk3⟩ := hswap_hi r' (by omega) hr2
            rw [hk3]
            exact hnb c' hcc h2 h3 k' hk1 hk2
          rw [hgeq2 r' hr2]
          split
          · simp only [eqXor, Nat.testBit_xor, hbase, hprc']
            rfl
          · exact hbase
      · -- piv_inj
        intro c1 c2 r hc1 hc2 hs1 hs2
        rw [hsetpiv c1] at hs1
        rw [hsetpiv c2] at hs2
        rcases eq_or_ne c1 c with h1 | h1 <;> rcases eq_or_ne c2 c with h2 | h2
        · omega
        · rw [if_pos h1] at hs1
          rw [if_neg h2] at hs2
          injection hs1 with hr
          have := (hps c2 r hc2 hs2).2
          omega
        · rw [if_neg h1] at hs1
          rw [if_pos h2] at hs2
          injection hs2 with hr
          have := (hps c1 r hc1 hs1).2
          omega
        · rw [if_neg h1] at hs1
          rw [if_neg h2] at hs2
          exact hpi c1 c2 r hc1 hc2 hs1 hs2
      · -- row_surj
        intro r hr
        rcases eq_or_ne r st.row with h | h
        · subst h
          exact ⟨c, hc, by rw [hsetpiv c, if_pos rfl]⟩
        · have hrlt : r < st.row := by omega
          obtain ⟨c', hc', hsome⟩ := hrs r hrlt
          refine ⟨c', hc', ?_⟩
          rw [hsetpiv c']
          rcases eq_or_ne c' c with h2 | h2
          · subst h2
            rw [hng c' (le_refl _) hc'] at hsome
            cases hsome
          · rw [if_neg h2]
            exact hsome

lemma elimInv_fold {n : Nat} {orig : List Equation} :
    ∀ (k c : Nat) (st : ElimState), c + k ≤ n → ElimInv n orig c st →
      ElimInv n orig (c + k) ((List.range' c k).foldl elimStep st) := by
  intro k
  induction k with
  | zero => intro c st _ h; simpa using h
  | succ k ih =>
      intro c st hck h
      have h1 : ElimInv n orig (c + 1) (elimStep st c) := elimStep_inv (by omega) h
      have h2 := ih (c + 1) (elimStep st c) (by omega) h1
      rw [List.range'_succ, List.foldl_cons]
      have he : c + (k + 1) = (c + 1) + k := by omega
      rw [he]
      exact h2

/-- The invariant at the end of the elimination loop. -/
lemma elimLoop_inv (eqs : List Equation) (n : Nat)
    (hb : ∀ k, k < eqs.length → (eqs.getD k default).row < 2 ^ n) :
    ElimInv n eqs n (elimLoop eqs n) := by
  have h := elimInv_fold n 0 ⟨eqs, List.replicate n none, 0⟩ (by omega)
    (elimInv_init n eqs hb)
  rw [elimLoop, List.range_eq_range']
  simpa using h

/-- After the loop, every row from `st.row` down is the zero vector. -/
lemma final_zero_rows {n : Nat} {orig : List Equation} {st : ElimState}
    (inv : ElimInv n orig n st) :
    ∀ r, st.row ≤ r → r < orig.length → (st.eqs.getD r default).row = 0 := by
  intro r hr1 hr2
  apply Nat.eq_of_testBit_eq
  intro i
  rw [Nat.zero_testBit]
  rcases Nat.lt_or_ge i n with hi | hi
  · cases hp : st.pivotCol.getD i none with
    | none => exact inv.none_bit i hi hi hp r hr1 hr2
    | some r0 =>
        have h0 := inv.piv_some i r0 hi hp
        exact inv.piv_unique i r0 hi hp r hr2 (by omega)
  · exact testBit_of_ge (inv.bounded r hr2) hi

/-- When the consistency check passes, the zero rows carry `rhs = false`. -/
lemma final_rhs_false {n : Nat} {orig : List Equation} {st : ElimState}
    (inv : ElimInv n orig n st)
    (hchk : (st.eqs.any fun e => e.row == 0 && e.rhs) = false) :
    ∀ r, st.row ≤ r → r < orig.length → (st.eqs.getD r default).rhs = false := by
  intro r hr1 hr2
  have hz := final_zero_rows inv r hr1 hr2
  have hlt : r < st.eqs.length := by rw [inv.len_eqs]; omega
  have hmem : st.eqs.getD r default ∈ st.eqs := by
    rw [List.getD_eq_getElem _ _ hlt]
    exact List.getElem_mem _
  have := (List.any_eq_false.mp hchk) _ hmem
  rw [hz] at this
  simpa using this

/-- The `acc |= 1 << col` accumulation pattern common to
`particularOf`, `nullVecOf` and the mask construction. -/
def orFold (g : Nat → Bool) (l : List Nat) (a : Nat) : Nat :=
  l.foldl (fun acc col => if g col then acc ||| (1 <<< col) else acc) a

lemma range_contains (m i : Nat) : ((List.range m).contains i) = decide (i < m) := by
  by_cases h : i < m
  · have hc : (List.range m).contains i = true := by
      rw [List.contains_iff_exists_mem_beq]
      exact ⟨i, by simpa using h, by simp⟩
    simp [hc, h]
  · have hc : ¬((List.range m).contains i = true) := by
      rw [List.contains_iff_exists_mem_beq]
      rintro ⟨a, ha, hbeq⟩
      have hia : i = a := by simpa using hbeq
      subst hia
      exact h (by simpa using ha)
    have hcf : (List.range m).contains i = false := by
      cases hcc : (List.range m).contains i
      · rfl
      · exact absurd hcc hc
    rw [hcf, decide_eq_false h]

lemma testBit_orFold (g : Nat → Bool) :
    ∀ (l : List Nat) (a : Nat) (i : Nat),
      (orFold g l a).testBit i = (a.testBit i || (l.contains i && g i)) := by
  intro l
  induction l with
  | nil => intro a i; simp [orFold]
  | cons cHead rest ih =>
      intro a i
      rw [orFold, List.foldl_cons]
      have hres : ∀ a', (List.foldl
          (fun acc col => if g col then acc ||| (1 <<< col) else acc) a' rest).testBit i
          = (a'.testBit i || (rest.contains i && g i)) := fun a' => ih a' i
      by_cases hg : g cHead = true
      · rw [if_pos hg, hres]
        rw [Nat.testBit_lor, Nat.one_shiftLeft, Nat.testBit_two_pow]
        by_cases hic : cHead = i
        · subst hic
          simp [hg, List.contains_cons]
        · simp [hg, hic, List.contains_cons, Ne.symm hic]
      · rw [if_neg hg, hres]
        have hgf : g cHead = false := Bool.eq_false_iff.mpr hg
        by_cases hic : cHead = i
        · subst hic
          simp [List.contains_cons, hgf]
        · simp [List.contains_cons, hic, Ne.symm hic]

/-- The pivot-indexed right-hand side read by the particular-solution
loop. -/
def pivRhs (st : ElimState) (col : Nat) : Bool :=
  match st.pivotCol.getD col none with
  | some r => (st.eqs.getD r default).rhs
  | none => false

/-- The pivot-indexed coefficient bit read by the nullspace loop. -/
def pivBitF (st : ElimState) (freeCol col : Nat) : Bool :=
  match st.pivotCol.getD col none with
  | some r => (st.eqs.getD r default).row.testBit freeCol
  | none => false

lemma particularOf_eq_orFold (st : ElimState) :
    particularOf st = orFold (pivRhs st) (List.range st.pivotCol.length) 0 := by
  rw [particularOf, orFold]
  congr 1
  funext acc col
  rw [pivRhs]
  cases st.pivotCol.getD col none with
  | none => simp
  | some r => rfl

lemma nullVecOf_eq_orFold (st : ElimState) (freeCol : Nat) :
    nullVecOf st freeCol =
      orFold (pivBitF st freeCol) (List.range st.pivotCol.length) (1 <<< freeCol) := by
  rw [nullVecOf, orFold]
  congr 1
  funext acc col
  rw [pivBitF]
  cases st.pivotCol.getD col none with
  | none => simp
  | some r => rfl

lemma testBit_particularOf (st : ElimState) (i : Nat) :
    (particularOf st).testBit i =
      (decide (i < st.pivotCol.length) && pivRhs st i) := by
  rw [particularOf_eq_orFold, testBit_orFold, Nat.zero_testBit, range_contains]
  simp

lemma testBit_nullVecOf (st : ElimState) (freeCol i : Nat) :
    (nullVecOf st freeCol).testBit i =
      (decide (freeCol = i) ||
        (decide (i < st.pivotCol.length) && pivBitF st freeCol i)) := by
  rw [nullVecOf_eq_orFold, testBit_orFold, range_contains,
    Nat.one_shiftLeft, Nat.testBit_two_pow]

lemma particularOf_lt {n : Nat} (st : ElimState) (hlen : st.pivotCol.length = n) :
    particularOf st < 2 ^ n := by
  apply Nat.lt_pow_two_of_testBit
  intro i hi
  rw [testBit_particularOf, hlen]
  simp [Nat.not_lt.mpr hi]

lemma nullVecOf_lt {n : Nat} (st : ElimState) (freeCol : Nat)
    (hlen : st.pivotCol.length = n) (hf : freeCol < n) :
    nullVecOf st freeCol < 2 ^ n := by
  apply Nat.lt_pow_two_of_testBit
  intro i hi
  rw [testBit_nullVecOf, hlen]
  simp only [Bool.or_eq_false_iff]
  constructor
  · simp only [decide_eq_false_iff_not]
    omega
  · simp [Nat.not_lt.mpr hi]

lemma sum_double_ite (w : ZMod 2) (f ck : Nat) (hne : f ≠ ck) (hf : f < 64)
    (hck : ck < 64) :
    ∑ i ∈ Finset.range 64, (if i = f then w else if i = ck then w else 0) = 0 := by
  have hsplit : ∀ i, (if i = f then w else if i = ck then w else 0) =
      (if i = f then w else 0) + (if i = ck then w else 0) := by
    intro i
    rcases eq_or_ne i f with rfl | h1
    · rw [if_pos rfl, if_pos rfl, if_neg hne, add_zero]
    · rw [if_neg h1, if_neg h1, zero_add]
  rw [Finset.sum_congr rfl (fun i _ => hsplit i), Finset.sum_add_distrib,
    Finset.sum_ite_eq' (Finset.range 64) f, Finset.sum_ite_eq' (Finset.range 64) ck,
    if_pos (Finset.mem_range.mpr hf), if_pos (Finset.mem_range.mpr hck)]
  have h2 : (2 : ZMod 2) = 0 := by decide
  calc w + w = 2 * w := by ring
    _ = 0 := by rw [h2, zero_mul]

/-- The particular solution satisfies the eliminated system when the
consistency check passes. -/
lemma particular_sats {n : Nat} {orig : List Equation} {st : ElimState}
    (inv : ElimInv n orig n st) (h64 : n ≤ 64)
    (hchk : (st.eqs.any fun e => e.row == 0 && e.rhs) = false) :
    SatL st.eqs (particularOf st) := by
  rw [satL_iff_getD]
  intro k hk
  have hklen : k < orig.length := by rw [← inv.len_eqs]; exact hk
  rcases Nat.lt_or_ge k st.row with hkr | hkr
  · obtain ⟨ck, hckn, hckp⟩ := inv.row_surj k hkr
    rw [eqSat]
    have hpoint : ∀ i ∈ Finset.range 64,
        bit2 (st.eqs.getD k default).row i * bit2 (particularOf st) i =
          if i = ck then bool2 ((st.eqs.getD k default).rhs) else 0 := by
      intro i _
      rcases eq_or_ne i ck with rfl | hne
      · rw [if_pos rfl]
        have hb : bit2 (st.eqs.getD k default).row i = 1 := by
          rw [bit2, inv.piv_bit i k hckn hckp]; rfl
        rw [hb, one_mul, bit2, testBit_particularOf, inv.len_piv]
        have hpr : pivRhs st i = (st.eqs.getD k default).rhs := by
          rw [pivRhs, hckp]
        rw [hpr, decide_eq_true hckn, Bool.true_and, bool2]
      · rw [if_neg hne]
        by_cases hpi : (particularOf st).testBit i = true
        · rw [testBit_particularOf, inv.len_piv] at hpi
          have hpi' : i < n ∧ pivRhs st i = true := by simpa using hpi
          have hin : i < n := hpi'.1
          have hprh : pivRhs st i = true := hpi'.2
          cases hgi : st.pivotCol.getD i none with
          | none => rw [pivRhs, hgi] at hprh; cases hprh
          | some ri =>
              have hrik : ri ≠ k := fun h => hne (inv.piv_inj i ck k hin hckn
                (h ▸ hgi) hckp)
              have hz : (st.eqs.getD k default).row.testBit i = false :=
                inv.piv_unique i ri hin hgi k hklen (Ne.symm hrik)
              rw [bit2, hz]
              simp
        · have hz : bit2 (particularOf st) i = 0 := by
            rw [bit2]
            simp [hpi]
          rw [hz, mul_zero]
    rw [dot2, Finset.sum_congr rfl hpoint,
      Finset.sum_ite_eq' (Finset.range 64) ck
        (fun _ => bool2 ((st.eqs.getD k default).rhs)),
      if_pos (Finset.mem_range.mpr (by omega))]
  · rw [eqSat, final_zero_rows inv k hkr hklen, final_rhs_false inv hchk k hkr hklen,
      dot2_zero_left]
    rfl

/-- Each nullspace vector lies in the kernel of the eliminated
system. -/
lemma nullVec_in_kernel {n : Nat} {orig : List Equation} {st : ElimState}
    (inv : ElimInv n orig n st) (h64 : n ≤ 64) (f : Nat) (hf : f < n)
    (hfree : st.pivotCol.getD f none = none) :
    SatL (homog st.eqs) (nullVecOf st f) := by
  rw [satL_iff_getD]
  intro k hk
  rw [length_homog] at hk
  have hklen : k < orig.length := by rw [← inv.len_eqs]; exact hk
  rw [getD_homog, eqSat]
  show dot2 (st.eqs.getD k default).row (nullVecOf st f) = bool2 false
  rcases Nat.lt_or_ge k st.row with hkr | hkr
  · obtain ⟨ck, hckn, hckp⟩ := inv.row_surj k hkr
    have hneq : f ≠ ck := by
      intro h
      rw [h, hckp] at hfree
      cases hfree
    have hpoint : ∀ i ∈ Finset.range 64,
        bit2 (st.eqs.getD k default).row i * bit2 (nullVecOf st f) i =
          if i = f then bit2 (st.eqs.getD k default).row f
          else if i = ck then bit2 (st.eqs.getD k default).row f else 0 := by
      intro i _
      rcases eq_or_ne i f with hif | hif
      · rw [if_pos hif, hif]
        have hv : bit2 (nullVecOf st f) f = 1 := by
          rw [bit2, testBit_nullVecOf]
          simp
        rw [hv, mul_one]
      · rw [if_neg hif]
        rcases eq_or_ne i ck with hick | hick
        · rw [if_pos hick, hick]
          have hb : bit2 (st.eqs.getD k default).row ck = 1 := by
            rw [bit2, inv.piv_bit ck k hckn hckp]; rfl
          have hv : bit2 (nullVecOf st f) ck =
              bit2 (st.eqs.getD k default).row f := by
            rw [bit2, testBit_nullVecOf, inv.len_piv]
            have hpb : pivBitF st f ck = (st.eqs.getD k default).row.testBit f := by
              rw [pivBitF, hckp]
            rw [hpb, decide_eq_true hckn,
              decide_eq_false (fun h : f = ck => hneq h), Bool.false_or,
              Bool.true_and, bit2]
          rw [hb, one_mul, hv]
        · rw [if_neg hick]
          by_cases hvi : (nullVecOf st f).testBit i = true
          · rw [testBit_nullVecOf, inv.len_piv] at hvi
            have hvi' : f = i ∨ (i < n ∧ pivBitF st f i = true) := by
              simpa using hvi
            rcases hvi' with h1 | h2
            · exact absurd h1.symm hif
            · obtain ⟨hin, hpb⟩ := h2
              cases hgi : st.pivotCol.getD i none with
              | none => rw [pivBitF, hgi] at hpb; cases hpb
              | some ri =>
                  have hrik : ri ≠ k := fun h => hick (inv.piv_inj i ck k hin hckn
                    (h ▸ hgi) hckp)
                  have hz : (st.eqs.getD k default).row.testBit i = false :=
                    inv.piv_unique i ri hin hgi k hklen (Ne.symm hrik)
                  rw [bit2, hz]
                  simp
          · have hz : bit2 (nullVecOf st f) i = 0 := by
              rw [bit2]
              simp [hvi]
            rw [hz, mul_zero]
    rw [dot2, Finset.sum_congr rfl hpoint,
      sum_double_ite _ f ck hneq (by omega) (by omega)]
    rfl
  · rw [final_zero_rows inv k hkr hklen, dot2_zero_left]
    rfl

/-- The sum of the free-column contributions of a row against `u`. -/
def freeTermSum (st : ElimState) (n a u : Nat) : ZMod 2 :=
  ∑ i ∈ Finset.range 64,
    (if i < n ∧ st.pivotCol.getD i none = none then bit2 a i * bit2 u i else 0)

/-- A pivot row's dot product decomposes into the pivot bit plus the
free-column terms. -/
lemma dot2_decompose {n : Nat} {orig : List Equation} {st : ElimState}
    (inv : ElimInv n orig n st) (h64 : n ≤ 64) (k ck : Nat) (hckn : ck < n)
    (hckp : st.pivotCol.getD ck none = some k) (hklen : k < orig.length) (u : Nat) :
    dot2 (st.eqs.getD k default).row u =
      bit2 u ck + freeTermSum st n (st.eqs.getD k default).row u := by
  have hpoint : ∀ i ∈ Finset.range 64,
      bit2 (st.eqs.getD k default).row i * bit2 u i =
        (if i = ck then bit2 u ck else 0) +
          (if i < n ∧ st.pivotCol.getD i none = none then
            bit2 (st.eqs.getD k default).row i * bit2 u i else 0) := by
    intro i _
    rcases eq_or_ne i ck with rfl | hne
    · have hb : bit2 (st.eqs.getD k default).row i = 1 := by
        rw [bit2, inv.piv_bit i k hckn hckp]; rfl
      rw [if_pos rfl, if_neg (fun h => by rw [hckp] at h; cases h.2), add_zero,
        hb, one_mul]
    · rw [if_neg hne, zero_add]
      by_cases hfree : i < n ∧ st.pivotCol.getD i none = none
      · rw [if_pos hfree]
      · rw [if_neg hfree]
        rcases Nat.lt_or_ge i n with hin | hin
        · have hsome : ∃ ri, st.pivotCol.getD i none = some ri := by
            cases hgi : st.pivotCol.getD i none with
            | none => exact absurd ⟨hin, hgi⟩ hfree
            | some ri => exact ⟨ri, rfl⟩
          obtain ⟨ri, hgi⟩ := hsome
          have hrik : ri ≠ k := fun h => hne (inv.piv_inj i ck k hin hckn
            (h ▸ hgi) hckp)
          have hz : (st.eqs.getD k default).row.testBit i = false :=
            inv.piv_unique i ri hin hgi k hklen (Ne.symm hrik)
          rw [bit2, hz]
          simp
        · have hz : (st.eqs.getD k default).row.testBit i = false :=
            testBit_of_ge (inv.bounded k hklen) hin
          rw [bit2, hz]
          simp
  rw [dot2, Finset.sum_congr rfl hpoint, Finset.sum_add_distrib,
    Finset.sum_ite_eq' (Finset.range 64) ck (fun _ => bit2 u ck),
    if_pos (Finset.mem_range.mpr (by omega))]
  rfl

/-- Two bounded solutions of the eliminated system agreeing on every
free column are equal: the pivot bits are determined by the free
bits. -/
lemma solution_determined {n : Nat} {orig : List Equation} {st : ElimState}
    (inv : ElimInv n orig n st) (h64 : n ≤ 64) (u w : Nat)
    (hu : SatL st.eqs u) (hw : SatL st.eqs w) (hub : u < 2 ^ n) (hwb : w < 2 ^ n)
    (hagree : ∀ f, f < n → st.pivotCol.getD f none = none →
      u.testBit f = w.testBit f) :
    u = w := by
  apply Nat.eq_of_testBit_eq
  intro i
  rcases Nat.lt_or_ge i n with hi | hi
  · cases hp : st.pivotCol.getD i none with
    | none => exact hagree i hi hp
    | some k =>
        have hkr := inv.piv_some i k hi hp
        have hklen : k < orig.length := by
          have := inv.row_le
          omega
        have hsatu : eqSat (st.eqs.getD k default) u :=
          (satL_iff_getD _ _).mp hu k (by rw [inv.len_eqs]; omega)
        have hsatw : eqSat (st.eqs.getD k default) w :=
          (satL_iff_getD _ _).mp hw k (by rw [inv.len_eqs]; omega)
        rw [eqSat, dot2_decompose inv h64 k i hi hp hklen u] at hsatu
        rw [eqSat, dot2_decompose inv h64 k i hi hp hklen w] at hsatw
        have hsum : freeTermSum st n (st.eqs.getD k default).row u =
            freeTermSum st n (st.eqs.getD k default).row w := by
          apply Finset.sum_congr rfl
          intro j _
          by_cases hj : j < n ∧ st.pivotCol.getD j none = none
          · rw [if_pos hj, if_pos hj, bit2, bit2, hagree j hj.1 hj.2]
            rfl
          · rw [if_neg hj, if_neg hj]
        have heq : bit2 u i = bit2 w i := by
          have h1 := hsatu.trans hsatw.symm
          rw [hsum] at h1
          exact add_right_cancel h1
        exact bit2_inj heq
  · rw [testBit_of_ge hub hi, testBit_of_ge hwb hi]

/-- The XOR of the mask-selected vectors, starting at bit index `i`:
the pure-value form of `applyMask`. -/
def xorSel (mask : Nat) : Nat → List Nat → Nat
  | _, [] => 0
  | i, v :: rest => (if mask.testBit i then v else 0) ^^^ xorSel mask (i + 1) rest

lemma applyMask_eq_xorSel (mask : Nat) :
    ∀ (vs : List Nat) (x i : Nat), applyMask mask x i vs = x ^^^ xorSel mask i vs := by
  intro vs
  induction vs with
  | nil => intro x i; simp [applyMask, xorSel]
  | cons v rest ih =>
      intro x i
      rw [applyMask, xorSel, ih]
      by_cases hb : mask.testBit i = true
      · rw [if_pos hb, if_pos hb, Nat.xor_assoc]
      · rw [if_neg hb, if_neg hb, Nat.zero_xor]

lemma bit2_xorSel (mask : Nat) :
    ∀ (vs : List Nat) (i j : Nat),
      bit2 (xorSel mask i vs) j =
        ∑ t ∈ Finset.range vs.length,
          (if mask.testBit (i + t) then bit2 (vs.getD t 0) j else 0) := by
  intro vs
  induction vs with
  | nil => intro i j; simp [xorSel, bit2_zero]
  | cons v rest ih =>
      intro i j
      rw [xorSel, bit2_xor]
      have hfirst : bit2 (if mask.testBit i then v else 0) j
          = (if mask.testBit i then bit2 v j else 0) := by
        by_cases hb : mask.testBit i = true
        · rw [if_pos hb, if_pos hb]
        · rw [if_neg hb, if_neg hb, bit2_zero]
      rw [hfirst, ih]
      rw [List.length_cons, Finset.sum_range_succ']
      have hstep : ∀ t, (if mask.testBit (i + (t + 1))
            then bit2 (((v :: rest)).getD (t + 1) 0) j else 0)
          = (if mask.testBit ((i + 1) + t) then bit2 (rest.getD t 0) j else 0) := by
        intro t
        rw [List.getD_cons_succ, show i + (t + 1) = i + 1 + t from by omega]
      rw [Finset.sum_congr rfl (fun t _ => hstep t)]
      have h0 : (if mask.testBit (i + 0) then bit2 (((v :: rest)).getD 0 0) j else 0)
          = (if mask.testBit i then bit2 v j else 0) := by
        rw [Nat.add_zero, List.getD_cons_zero]
      rw [h0, add_comm]

lemma rhs_homog {E : List Equation} {e : Equation} (he : e ∈ homog E) :
    e.rhs = false := by
  rw [homog] at he
  obtain ⟨e0, _, rfl⟩ := List.mem_map.mp he
  rfl

lemma satL_homog_zero (E : List Equation) : SatL (homog E) 0 := by
  intro e he
  rw [eqSat, dot2_zero_right, rhs_homog he]
  rfl

lemma satL_homog_xor {E : List Equation} {u v : Nat} (hu : SatL (homog E) u)
    (hv : SatL (homog E) v) : SatL (homog E) (u ^^^ v) := by
  intro e he
  have h1 := hu e he
  have h2 := hv e he
  rw [eqSat] at h1 h2 ⊢
  rw [dot2_xor_right, h1, h2, rhs_homog he]
  simp [bool2]

lemma satL_xor_kernel {E : List Equation} {u v : Nat} (hu : SatL E u)
    (hv : SatL (homog E) v) : SatL E (u ^^^ v) := by
  intro e he
  have h1 := hu e he
  have h2 := hv ⟨e.row, false⟩ (by rw [homog]; exact List.mem_map.mpr ⟨e, he, rfl⟩)
  rw [eqSat] at h1 h2 ⊢
  rw [dot2_xor_right, h1]
  have h2' : dot2 e.row v = 0 := by rw [h2]; rfl
  rw [h2', add_zero]

lemma xorSel_kernel {E : List Equation} (mask : Nat) :
    ∀ (vs : List Nat) (i : Nat), (∀ v ∈ vs, SatL (homog E) v) →
      SatL (homog E) (xorSel mask i vs) := by
  intro vs
  induction vs with
  | nil => intro i _; exact satL_homog_zero E
  | cons v rest ih =>
      intro i hall
      rw [xorSel]
      apply satL_homog_xor
      · by_cases hb : mask.testBit i = true
        · rw [if_pos hb]
          exact hall v (List.mem_cons_self _ _)
        · rw [if_neg hb]
          exact satL_homog_zero E
      · exact ih (i + 1) (fun w hw => hall w (List.mem_cons_of_mem _ hw))

lemma xorSel_lt {n : Nat} (mask : Nat) :
    ∀ (vs : List Nat) (i : Nat), (∀ v ∈ vs, v < 2 ^ n) →
      xorSel mask i vs < 2 ^ n := by
  intro vs
  induction vs with
  | nil => intro i _; rw [xorSel]; exact Nat.two_pow_pos n
  | cons v rest ih =>
      intro i hall
      rw [xorSel]
      apply Nat.xor_lt_two_pow
      · by_cases hb : mask.testBit i = true
        · rw [if_pos hb]
          exact hall v (List.mem_cons_self _ _)
        · rw [if_neg hb]
          exact Nat.two_pow_pos n
      · exact ih (i + 1) (fun w hw => hall w (List.mem_cons_of_mem _ hw))

/-- The pivotless (free) columns of the final state, in increasing
order. -/
def freeColsOf (st : ElimState) : List Nat :=
  (List.range st.pivotCol.length).filter fun c =>
    decide (st.pivotCol.getD c none = none)

lemma filterMap_if_eq {α β : Type} (P : α → Prop) [DecidablePred P] (g : α → β) :
    ∀ l : List α, (l.filterMap fun c => if P c then some (g c) else none)
      = (l.filter fun c => decide (P c)).map g := by
  intro l
  induction l with
  | nil => rfl
  | cons a t ih =>
      rw [List.filterMap_cons, List.filter_cons]
      by_cases hp : P a
      · simp [hp, ih]
      · simp [hp, ih]

lemma nullspaceOf_eq_map (st : ElimState) :
    nullspaceOf st = (freeColsOf st).map (nullVecOf st) := by
  rw [nullspaceOf, freeColsOf]
  exact filterMap_if_eq (fun c => st.pivotCol.getD c none = none) (nullVecOf st) _

lemma mem_freeColsOf {st : ElimState} {f : Nat} :
    f ∈ freeColsOf st ↔
      f < st.pivotCol.length ∧ st.pivotCol.getD f none = none := by
  rw [freeColsOf, List.mem_filter, List.mem_range]
  simp

lemma nodup_freeColsOf (st : ElimState) : (freeColsOf st).Nodup :=
  (List.nodup_range _).filter _

/-- The mask selecting, for each free column, the corresponding bit of
the target solution `x`. -/
def maskFor (x : Nat) (fcs : List Nat) : Nat :=
  orFold (fun t => x.testBit (fcs.getD t 0)) (List.range fcs.length) 0

lemma testBit_maskFor (x : Nat) (fcs : List Nat) (t : Nat) :
    (maskFor x fcs).testBit t =
      (decide (t < fcs.length) && x.testBit (fcs.getD t 0)) := by
  rw [maskFor, testBit_orFold, Nat.zero_testBit, range_contains]
  simp

lemma maskFor_lt (x : Nat) (fcs : List Nat) : maskFor x fcs < 2 ^ fcs.length := by
  apply Nat.lt_pow_two_of_testBit
  intro i hi
  rw [testBit_maskFor]
  simp [Nat.not_lt.mpr hi]

/-- Enumeration completeness: every bounded solution of the eliminated
system is `particular XOR (mask-selected nullspace vectors)` for the
mask reading off its free bits. -/
lemma solution_reached {n : Nat} {orig : List Equation} {st : ElimState}
    (inv : ElimInv n orig n st) (h64 : n ≤ 64)
    (hchk : (st.eqs.any fun e => e.row == 0 && e.rhs) = false)
    (x : Nat) (hx : x < 2 ^ n) (hsat : SatL st.eqs x) :
    applyMask (maskFor x (freeColsOf st)) (particularOf st) 0 (nullspaceOf st) = x := by
  have hnv_mem : ∀ v ∈ nullspaceOf st, SatL (homog st.eqs) v ∧ v < 2 ^ n := by
    intro v hv
    rw [nullspaceOf_eq_map] at hv
    obtain ⟨f, hf, rfl⟩ := List.mem_map.mp hv
    obtain ⟨hflen, hffree⟩ := mem_freeColsOf.mp hf
    have hfn : f < n := by rw [← inv.len_piv]; exact hflen
    exact ⟨nullVec_in_kernel inv h64 f hfn hffree,
      nullVecOf_lt st f inv.len_piv hfn⟩
  rw [applyMask_eq_xorSel]
  apply solution_determined inv h64 _ x
    (satL_xor_kernel (particular_sats inv h64 hchk)
      (xorSel_kernel _ _ 0 (fun v hv => (hnv_mem v hv).1)))
    hsat
    (Nat.xor_lt_two_pow (particularOf_lt st inv.len_piv)
      (xorSel_lt _ _ 0 (fun v hv => (hnv_mem v hv).2)))
    hx
  intro f hfn hffree
  apply bit2_inj
  rw [bit2_xor]
  have hpart0 : bit2 (particularOf st) f = 0 := by
    rw [bit2, testBit_particularOf]
    have : pivRhs st f = false := by rw [pivRhs, hffree]
    simp [this]
  rw [hpart0, zero_add]
  -- compute the xorSel bit at the free column f
  have hfmem : f ∈ freeColsOf st := mem_freeColsOf.mpr
    ⟨by rw [inv.len_piv]; exact hfn, hffree⟩
  obtain ⟨t0, ht0, hft0⟩ := List.getElem_of_mem hfmem
  have hgetD : (freeColsOf st).getD t0 0 = f := by
    rw [List.getD_eq_getElem _ _ ht0, hft0]
  rw [nullspaceOf_eq_map, bit2_xorSel]
  have hlenmap : (List.map (nullVecOf st) (freeColsOf st)).length =
      (freeColsOf st).length := by simp
  rw [hlenmap]
  have hpoint : ∀ t ∈ Finset.range (freeColsOf st).length,
      (if (maskFor x (freeColsOf st)).testBit (0 + t) then
        bit2 ((List.map (nullVecOf st) (freeColsOf st)).getD t 0) f else 0) =
      (if t = t0 then bit2 x f else 0) := by
    intro t htr
    have htK : t < (freeColsOf st).length := Finset.mem_range.mp htr
    have hmapD : (List.map (nullVecOf st) (freeColsOf st)).getD t 0 =
        nullVecOf st ((freeColsOf st).getD t 0) := by
      rw [List.getD_eq_getElem _ _ (by simpa using htK),
        List.getD_eq_getElem _ _ htK]
      simp
    have hmask : (maskFor x (freeColsOf st)).testBit (0 + t) =
        x.testBit ((freeColsOf st).getD t 0) := by
      rw [Nat.zero_add, testBit_maskFor, decide_eq_true htK, Bool.true_and]
    have hnvbit : bit2 (nullVecOf st ((freeColsOf st).getD t 0)) f =
        (if (freeColsOf st).getD t 0 = f then 1 else 0) := by
      rw [bit2, testBit_nullVecOf]
      have hpbf : pivBitF st ((freeColsOf st).getD t 0) f = false := by
        rw [pivBitF, hffree]
      rw [hpbf, Bool.and_false, Bool.or_false]
      by_cases he : (freeColsOf st).getD t 0 = f
      · rw [decide_eq_true he, if_pos he]
        rfl
      · rw [decide_eq_false he, if_neg he]
        rfl
    rw [hmapD, hmask, hnvbit]
    rcases eq_or_ne t t0 with rfl | hne
    · rw [if_pos rfl, hgetD, if_pos rfl, bit2]
    · rw [if_neg hne]
      have hneq : (freeColsOf st).getD t 0 ≠ f := by
        intro he
        apply hne
        have h1 : (freeColsOf st)[t] = (freeColsOf st)[t0] := by
          rw [hft0, ← he, List.getD_eq_getElem _ _ htK]
        exact (List.Nodup.getElem_inj_iff (nodup_freeColsOf st)).mp h1
      rw [if_neg hneq]
      by_cases hm : x.testBit ((freeColsOf st).getD t 0) = true
      · rw [if_pos hm]
      · rw [if_neg hm]
  rw [Finset.sum_congr rfl hpoint,
    Finset.sum_ite_eq' (Finset.range (freeColsOf st).length) t0 (fun _ => bit2 x f),
    if_pos (Finset.mem_range.mpr ht0)]

lemma foldl_min_le (F : Nat → Nat) :
    ∀ (l : List Nat) (a : Nat),
      (l.foldl (fun best m => min best (F m)) a) ≤ a ∧
      ∀ m ∈ l, (l.foldl (fun best m => min best (F m)) a) ≤ F m := by
  intro l
  induction l with
  | nil => intro a; exact ⟨le_refl _, by simp⟩
  | cons m0 rest ih =>
      intro a
      rw [List.foldl_cons]
      obtain ⟨h1, h2⟩ := ih (min a (F m0))
      refine ⟨le_trans h1 (min_le_left _ _), ?_⟩
      intro m hm
      rcases List.mem_cons.mp hm with rfl | hm'
      · exact le_trans h1 (min_le_right _ _)
      · exact h2 m hm'

lemma foldl_min_attained (F : Nat → Nat) :
    ∀ (l : List Nat) (a : Nat),
      (l.foldl (fun best m => min best (F m)) a) = a ∨
      ∃ m ∈ l, (l.foldl (fun best m => min best (F m)) a) = F m := by
  intro l
  induction l with
  | nil => intro a; exact Or.inl rfl
  | cons m0 rest ih =>
      intro a
      rw [List.foldl_cons]
      rcases ih (min a (F m0)) with h | ⟨m, hm, hmeq⟩
      · rcases le_total a (F m0) with hle | hle
        · left
          rw [h, min_eq_left hle]
        · right
          exact ⟨m0, List.mem_cons_self _ _, by rw [h, min_eq_right hle]⟩
      · right
        exact ⟨m, List.mem_cons_of_mem _ hm, hmeq⟩

lemma minPressesOf_le (pr : Nat) (ns : List Nat) :
    minPressesOf pr ns ≤ countOnes64 pr ∧
    ∀ mask ∈ List.range (2 ^ ns.length),
      minPressesOf pr ns ≤ countOnes64 (applyMask mask pr 0 ns) :=
  foldl_min_le (fun mask => countOnes64 (applyMask mask pr 0 ns)) _ _

lemma minPressesOf_attained (pr : Nat) (ns : List Nat) :
    minPressesOf pr ns = countOnes64 pr ∨
    ∃ mask ∈ List.range (2 ^ ns.length),
      minPressesOf pr ns = countOnes64 (applyMask mask pr 0 ns) :=
  foldl_min_attained (fun mask => countOnes64 (applyMask mask pr 0 ns)) _ _

/-- Full functional characterization of `gaussian_elim_gf2` for systems
over at most 64 variables with rows packed below `2^n`. -/
theorem gaussianElim_spec (eqs : List Equation) (n : Nat) (h64 : n ≤ 64)
    (hb : ∀ e ∈ eqs, e.row < 2 ^ n) :
    (gaussianElimGF2 eqs n = none → ∀ x, ¬SatL eqs x) ∧
    (∀ pr ns, gaussianElimGF2 eqs n = some (pr, ns) →
      pr < 2 ^ n ∧ SatL eqs pr ∧
      (∀ v ∈ ns, v < 2 ^ n ∧ SatL (homog eqs) v) ∧
      (∀ x, x < 2 ^ n → SatL eqs x →
        ∃ mask, mask < 2 ^ ns.length ∧ applyMask mask pr 0 ns = x)) := by
  have hbD : ∀ k, k < eqs.length → (eqs.getD k default).row < 2 ^ n := by
    intro k hk
    apply hb
    rw [List.getD_eq_getElem _ _ hk]
    exact List.getElem_mem _
  have inv := elimLoop_inv eqs n hbD
  constructor
  · intro hnone x hsat
    simp only [gaussianElimGF2] at hnone
    by_cases hchk : ((elimLoop eqs n).eqs.any fun e => e.row == 0 && e.rhs) = true
    · obtain ⟨e, hmem, hprop⟩ := List.any_eq_true.mp hchk
      have hprop' : e.row = 0 ∧ e.rhs = true := by simpa using hprop
      have hx2 : SatL (elimLoop eqs n).eqs x := (inv.sat_iff x).mp hsat
      have hes := hx2 e hmem
      rw [eqSat, hprop'.1, dot2_zero_left, hprop'.2] at hes
      exact absurd hes (by decide)
    · rw [if_neg hchk] at hnone
      cases hnone
  · intro pr ns hsome
    simp only [gaussianElimGF2] at hsome
    by_cases hchk : ((elimLoop eqs n).eqs.any fun e => e.row == 0 && e.rhs) = true
    · rw [if_pos hchk] at hsome
      cases hsome
    · rw [if_neg hchk] at hsome
      have hchkf : ((elimLoop eqs n).eqs.any fun e => e.row == 0 && e.rhs) = false :=
        Bool.eq_false_iff.mpr hchk
      injection hsome with hpair
      injection hpair with hpr hns
      subst hpr
      subst hns
      have hnv_mem : ∀ v ∈ nullspaceOf (elimLoop eqs n),
          SatL (homog (elimLoop eqs n).eqs) v ∧ v < 2 ^ n := by
        intro v hv
        rw [nullspaceOf_eq_map] at hv
        obtain ⟨f, hf, rfl⟩ := List.mem_map.mp hv
        obtain ⟨hflen, hffree⟩ := mem_freeColsOf.mp hf
        have hfn : f < n := by rw [← inv.len_piv]; exact hflen
        exact ⟨nullVec_in_kernel inv h64 f hfn hffree,
          nullVecOf_lt _ f inv.len_piv hfn⟩
      refine ⟨particularOf_lt _ inv.len_piv,
        (inv.sat_iff _).mpr (particular_sats inv h64 hchkf), ?_, ?_⟩
      · intro v hv
        exact ⟨(hnv_mem v hv).2, (inv.hom_iff v).mpr (hnv_mem v hv).1⟩
      · intro x hxb hxs
        refine ⟨maskFor x (freeColsOf (elimLoop eqs n)), ?_, ?_⟩
        · rw [nullspaceOf_eq_map, List.length_map]
          exact maskFor_lt x _
        · exact solution_reached inv h64 hchkf x hxb ((inv.sat_iff x).mp hxs)

lemma lor_lt_two_pow {x y e : Nat} (hx : x < 2 ^ e) (hy : y < 2 ^ e) :
    x ||| y < 2 ^ e := by
  apply Nat.lt_pow_two_of_testBit
  intro i hi
  rw [Nat.testBit_lor, testBit_of_ge hx hi, testBit_of_ge hy hi]
  rfl

lemma rowForLight_lt (li : Nat) :
    ∀ (bs : List Button) (j row : Nat), row < 2 ^ (j + bs.length) →
      rowForLight li row j bs < 2 ^ (j + bs.length) := by
  intro bs
  induction bs with
  | nil => intro j row h; exact h
  | cons b rest ih =>
      intro j row h
      rw [rowForLight]
      have hlen : j + (b :: rest).length = (j + 1) + rest.length := by
        simp
        omega
      rw [hlen] at h ⊢
      apply ih (j + 1)
      by_cases hmem : li ∈ b.lightsAffected
      · rw [if_pos hmem]
        apply lor_lt_two_pow h
        rw [Nat.one_shiftLeft]
        apply Nat.pow_lt_pow_right (by norm_num)
        omega
      · rw [if_neg hmem]
        exact h

lemma buildEquationsGo_rows_lt (bs : List Button) :
    ∀ (lights : List LightStatus) (i : Nat) (e : Equation),
      e ∈ buildEquationsGo bs i lights → e.row < 2 ^ bs.length := by
  intro lights
  induction lights with
  | nil => intro i e he; cases he
  | cons s rest ih =>
      intro i e he
      rw [buildEquationsGo] at he
      rcases List.mem_cons.mp he with rfl | he'
      · have := rowForLight_lt i bs 0 0 (by simpa using Nat.two_pow_pos bs.length)
        simpa using this
      · exact ih (i + 1) e he'

lemma buildEquations_rows_lt (m : Machine) :
    ∀ e ∈ buildEquations m, e.row < 2 ^ m.buttons.length := by
  intro e he
  exact buildEquationsGo_rows_lt m.buttons m.lightDiagram.inner 0 e he

end DayTen

/-- C2: `gaussian_elim_gf2` returns `None` if and only if no assignment
satisfies all equations mod 2; when it returns
`Some((particular, nullspace))`, the particular solution satisfies every
original equation and every nullspace basis vector `v` satisfies
`A·v = 0`; consequently `find_min_button_presses` panics
(`"Machine has no solution"`, embedded as `none`) exactly on unsolvable
machines. -/
theorem C2_gaussian_elim_solvability :
    (∀ (eqs : List DayTen.Equation) (n : Nat), n ≤ 64 →
      (∀ e ∈ eqs, e.row < 2 ^ n) →
      ((DayTen.gaussianElimGF2 eqs n = none ↔
          ¬∃ x, x < 2 ^ n ∧ DayTen.SatL eqs x) ∧
        ∀ pr ns, DayTen.gaussianElimGF2 eqs n = some (pr, ns) →
          DayTen.SatL eqs pr ∧ ∀ v ∈ ns, DayTen.SatL (DayTen.homog eqs) v)) ∧
    (∀ m : DayTen.Machine, m.buttons.length ≤ 64 →
      (DayTen.findMinButtonPresses m = none ↔
        ¬∃ x, x < 2 ^ m.buttons.length ∧
          DayTen.SatL (DayTen.buildEquations m) x)) := by
  have hmain : ∀ (eqs : List DayTen.Equation) (n : Nat), n ≤ 64 →
      (∀ e ∈ eqs, e.row < 2 ^ n) →
      ((DayTen.gaussianElimGF2 eqs n = none ↔
          ¬∃ x, x < 2 ^ n ∧ DayTen.SatL eqs x) ∧
        ∀ pr ns, DayTen.gaussianElimGF2 eqs n = some (pr, ns) →
          DayTen.SatL eqs pr ∧ ∀ v ∈ ns, DayTen.SatL (DayTen.homog eqs) v) := by
    intro eqs n h64 hb
    have hspec := DayTen.gaussianElim_spec eqs n h64 hb
    constructor
    · constructor
      · intro hnone ⟨x, _, hxs⟩
        exact hspec.1 hnone x hxs
      · intro hno
        cases hga : DayTen.gaussianElimGF2 eqs n with
        | none => rfl
        | some prns =>
            obtain ⟨pr, ns⟩ := prns
            obtain ⟨hprb, hprs, _, _⟩ := hspec.2 pr ns hga
            exact absurd ⟨pr, hprb, hprs⟩ hno
    · intro pr ns hsome
      obtain ⟨_, hprs, hker, _⟩ := hspec.2 pr ns hsome
      exact ⟨hprs, fun v hv => (hker v hv).2⟩
  refine ⟨hmain, ?_⟩
  intro m h64
  have heq := hmain (DayTen.buildEquations m) m.buttons.length h64
    (DayTen.buildEquations_rows_lt m)
  rw [← heq.1]
  simp only [DayTen.findMinButtonPresses]
  cases hga : DayTen.gaussianElimGF2 (DayTen.buildEquations m) m.buttons.length with
  | none => simp
  | some prns =>
      obtain ⟨pr, ns⟩ := prns
      simp

set_option maxRecDepth 40000 in
/-- Witness for C2: a one-light one-button machine is solvable, so
`find_min_button_presses` does not panic on it. -/
theorem C2_gaussian_elim_solvability_witness :
    DayTen.findMinButtonPresses ⟨⟨[.on]⟩, [⟨[0]⟩], []⟩ ≠ none := by
  intro h
  exact (C2_gaussian_elim_solvability.2 ⟨⟨[.on]⟩, [⟨[0]⟩], []⟩ (by norm_num)).mp h
    ⟨1, by norm_num, by decide⟩

/-- C1: for every machine over at most 64 buttons whose GF(2) system
has a solution, `find_min_button_presses` returns the minimum Hamming
weight (number of distinct buttons pressed) over all assignments
satisfying every equation mod 2: the returned value is attained by some
satisfying assignment and bounds every satisfying assignment's
popcount from below. -/
theorem C1_find_min_button_presses_minimal (m : DayTen.Machine)
    (h64 : m.buttons.length ≤ 64)
    (hsol : ∃ x, x < 2 ^ m.buttons.length ∧
      DayTen.SatL (DayTen.buildEquations m) x) :
    ∃ b, DayTen.findMinButtonPresses m = some b ∧
      (∃ x, x < 2 ^ m.buttons.length ∧ DayTen.SatL (DayTen.buildEquations m) x ∧
        DayTen.countOnes64 x = b) ∧
      (∀ x, x < 2 ^ m.buttons.length → DayTen.SatL (DayTen.buildEquations m) x →
        b ≤ DayTen.countOnes64 x) := by
  obtain ⟨x0, hx0b, hx0s⟩ := hsol
  have hb := DayTen.buildEquations_rows_lt m
  have hspec := DayTen.gaussianElim_spec (DayTen.buildEquations m)
    m.buttons.length h64 hb
  cases hga : DayTen.gaussianElimGF2 (DayTen.buildEquations m) m.buttons.length with
  | none => exact absurd hx0s (hspec.1 hga x0)
  | some prns =>
      obtain ⟨pr, ns⟩ := prns
      obtain ⟨hprb, hprs, hker, hcomp⟩ := hspec.2 pr ns hga
      refine ⟨DayTen.minPressesOf pr ns, ?_, ?_, ?_⟩
      · rw [DayTen.findMinButtonPresses, hga]
      · rcases DayTen.minPressesOf_attained pr ns with h | ⟨mask, _, hmeq⟩
        · exact ⟨pr, hprb, hprs, h.symm⟩
        · refine ⟨DayTen.applyMask mask pr 0 ns, ?_, ?_, hmeq.symm⟩
          · rw [DayTen.applyMask_eq_xorSel]
            exact Nat.xor_lt_two_pow hprb
              (DayTen.xorSel_lt _ _ 0 (fun v hv => (hker v hv).1))
          · rw [DayTen.applyMask_eq_xorSel]
            exact DayTen.satL_xor_kernel hprs
              (DayTen.xorSel_kernel _ _ 0 (fun v hv => (hker v hv).2))
      · intro x hxb hxs
        obtain ⟨mask, hmlt, hmeq⟩ := hcomp x hxb hxs
        have hle := (DayTen.minPressesOf_le pr ns).2 mask (List.mem_range.mpr hmlt)
        rw [hmeq] at hle
        exact hle

set_option maxRecDepth 40000 in
/-- Witness for C1 on the one-light one-button machine: the minimum is
attained and bounds every solution. -/
theorem C1_find_min_button_presses_minimal_witness :
    ∃ b, DayTen.findMinButtonPresses ⟨⟨[.on]⟩, [⟨[0]⟩], []⟩ = some b ∧
      (∃ x, x < 2 ^ 1 ∧
        DayTen.SatL (DayTen.buildEquations ⟨⟨[.on]⟩, [⟨[0]⟩], []⟩) x ∧
        DayTen.countOnes64 x = b) ∧
      (∀ x, x < 2 ^ 1 →
        DayTen.SatL (DayTen.buildEquations ⟨⟨[.on]⟩, [⟨[0]⟩], []⟩) x →
        b ≤ DayTen.countOnes64 x) :=
  C1_find_min_button_presses_minimal ⟨⟨[.on]⟩, [⟨[0]⟩], []⟩ (by norm_num)
    ⟨1, by norm_num, by decide⟩

namespace DayEight

/-- Embeds `struct UuidGenerator { inner: usize }` with its
`get_next` (returns the current value and increments). -/
structure UuidGenerator where
  inner : Nat
deriving DecidableEq, Repr

/-- `UuidGenerator::get_next`. -/
def UuidGenerator.getNext (g : UuidGenerator) : Nat × UuidGenerator :=
  (g.inner, ⟨g.inner + 1⟩)

/-- A `HashMap<usize, V>` is modelled as an association list with
distinct keys; `lookup` is `HashMap::get`.  Iteration order of the
Rust hash containers is unspecified, and every property proved below is
order-insensitive (membership, disjointness, lookups). -/
def lookup {α : Type} (l : List (Nat × α)) (k : Nat) : Option α :=
  (l.find? fun p => p.1 == k).map Prod.snd

/-- Embeds `struct CircuitManager`.  `circuit_to_position`'s
`HashSet<usize>` values are modelled as lists up to membership. -/
structure CircuitManager where
  uuidGen : UuidGenerator
  positionToCircuit : List (Nat × Nat)
  circuitToPosition : List (Nat × List Nat)
deriving DecidableEq, Repr

/-- Embeds `CircuitManager::new` over `n` positions (the positions'
coordinates are irrelevant to the manager; only their count enters).
Each index `idx` receives uuid `idx`, and the generator ends at `n`. -/
def CircuitManager.new (n : Nat) : CircuitManager where
  uuidGen := ⟨n⟩
  positionToCircuit := (List.range n).map fun i => (i, i)
  circuitToPosition := (List.range n).map fun i => (i, [i])

/-- The `position_to_circuit` rewrite loop of `try_combine`: every
position in the merged set now maps to the fresh circuit id. -/
def reassign (l : List (Nat × Nat)) (newC : List Nat) (newCid : Nat) :
    List (Nat × Nat) :=
  l.map fun p => if p.1 ∈ newC then (p.1, newCid) else p

/-- Embeds `CircuitManager::try_combine`; `none` embeds the `unwrap`
panics (absent keys).  The two `HashMap::remove` calls become a filter,
the fresh entry is prepended, and the per-member `get_mut` writes
become `reassign`, guarded by the existence check the `unwrap`s
perform. -/
def CircuitManager.tryCombine (cm : CircuitManager) (idx0 idx1 : Nat) :
    Option (Bool × CircuitManager) := do
  let cid0 ← lookup cm.positionToCircuit idx0
  let cid1 ← lookup cm.positionToCircuit idx1
  if cid0 = cid1 then
    pure (false, cm)
  else do
    let c0 ← lookup cm.circuitToPosition cid0
    let c1 ← lookup cm.circuitToPosition cid1
    let rest := cm.circuitToPosition.filter fun p =>
      decide (p.1 ≠ cid0) && decide (p.1 ≠ cid1)
    let (newCid, gen') := cm.uuidGen.getNext
    let newC := c0 ++ c1
    if newC.all fun pid => (lookup cm.positionToCircuit pid).isSome then
      pure (true, ⟨gen', reassign cm.positionToCircuit newC newCid,
        (newCid, newC) :: rest⟩)
    else none

/-- Folding a call sequence through `try_combine` (the Boolean results
are discarded, as `Manager::part_one`/`part_two` do). -/
def runCombines (cm : CircuitManager) : List (Nat × Nat) → Option CircuitManager
  | [] => some cm
  | (i, j) :: rest =>
      match cm.tryCombine i j with
      | none => none
      | some (_, cm') => runCombines cm' rest

lemma lookup_nil {α : Type} (k : Nat) : lookup ([] : List (Nat × α)) k = none := rfl

lemma lookup_cons {α : Type} (a : Nat) (b : α) (t : List (Nat × α)) (k : Nat) :
    lookup ((a, b) :: t) k = if a = k then some b else lookup t k := by
  rw [lookup, List.find?_cons]
  by_cases h : a = k
  · subst h
    simp
  · simp only [h, if_false]
    have : ((a, b).1 == k) = false := by simpa using h
    rw [this]
    rfl

lemma mem_of_lookup_eq_some {α : Type} {l : List (Nat × α)} {k : Nat} {v : α}
    (h : lookup l k = some v) : (k, v) ∈ l := by
  induction l with
  | nil => cases h
  | cons p t ih =>
      obtain ⟨a, b⟩ := p
      rw [lookup_cons] at h
      by_cases ha : a = k
      · rw [if_pos ha] at h
        injection h with h
        subst ha
        subst h
        exact List.mem_cons_self _ _
      · rw [if_neg ha] at h
        exact List.mem_cons_of_mem _ (ih h)

lemma lookup_eq_some_of_mem {α : Type} {l : List (Nat × α)} {k : Nat} {v : α}
    (hnd : (l.map Prod.fst).Nodup) (h : (k, v) ∈ l) : lookup l k = some v := by
  induction l with
  | nil => cases h
  | cons p t ih =>
      obtain ⟨a, b⟩ := p
      rw [List.map_cons, List.nodup_cons] at hnd
      rw [lookup_cons]
      rcases List.mem_cons.mp h with heq | hmem
      · injection heq with h1 h2
        subst h1
        subst h2
        rw [if_pos rfl]
      · by_cases ha : a = k
        · subst ha
          exact absurd (List.mem_map.mpr ⟨(a, v), hmem, rfl⟩) hnd.1
        · rw [if_neg ha]
          exact ih hnd.2 hmem

lemma lookup_isSome_iff_mem_keys {α : Type} {l : List (Nat × α)} {k : Nat} :
    (lookup l k).isSome = true ↔ k ∈ l.map Prod.fst := by
  constructor
  · intro h
    obtain ⟨v, hv⟩ := Option.isSome_iff_exists.mp h
    exact List.mem_map.mpr ⟨(k, v), mem_of_lookup_eq_some hv, rfl⟩
  · intro h
    obtain ⟨⟨a, b⟩, hab, hfst⟩ := List.mem_map.mp h
    cases hfst
    induction l with
    | nil => cases hab
    | cons p t ih =>
        obtain ⟨x, y⟩ := p
        rw [lookup_cons]
        rcases List.mem_cons.mp hab with heq | hmem
        · injection heq with h1 h2
          subst h1
          rw [if_pos rfl]
          rfl
        · by_cases hx : x = a
          · rw [if_pos hx]
            rfl
          · rw [if_neg hx]
            exact ih hmem (List.mem_map.mpr ⟨(a, b), hmem, rfl⟩)

lemma lookup_reassign (l : List (Nat × Nat)) (newC : List Nat) (newCid k : Nat) :
    lookup (reassign l newC newCid) k =
      (lookup l k).map fun v => if k ∈ newC then newCid else v := by
  induction l with
  | nil => rfl
  | cons p t ih =>
      obtain ⟨a, b⟩ := p
      by_cases hmem : a ∈ newC
      · rw [reassign, List.map_cons, if_pos hmem, lookup_cons, lookup_cons]
        by_cases hk : a = k
        · subst hk
          rw [if_pos rfl, if_pos rfl]
          simp [hmem]
        · rw [if_neg hk, if_neg hk]
          exact ih
      · rw [reassign, List.map_cons, if_neg hmem, lookup_cons, lookup_cons]
        by_cases hk : a = k
        · subst hk
          rw [if_pos rfl, if_pos rfl]
          simp [hmem]
        · rw [if_neg hk, if_neg hk]
          exact ih

lemma keys_reassign (l : List (Nat × Nat)) (newC : List Nat) (newCid : Nat) :
    (reassign l newC newCid).map Prod.fst = l.map Prod.fst := by
  induction l with
  | nil => rfl
  | cons p t ih =>
      obtain ⟨a, b⟩ := p
      rw [reassign, List.map_cons, List.map_cons, List.map_cons] at *
      by_cases hmem : a ∈ newC
      · rw [if_pos hmem]
        exact congrArg (a :: ·) ih
      · rw [if_neg hmem]
        exact congrArg (a :: ·) ih

lemma lookup_filter_ne {α : Type} (l : List (Nat × α)) (cid0 cid1 k : Nat)
    (h0 : k ≠ cid0) (h1 : k ≠ cid1) :
    lookup (l.filter fun p => decide (p.1 ≠ cid0) && decide (p.1 ≠ cid1)) k =
      lookup l k := by
  induction l with
  | nil => rfl
  | cons p t ih =>
      obtain ⟨a, b⟩ := p
      by_cases ha0 : a = cid0
      · subst ha0
        rw [List.filter_cons]
        have : (decide ((a, b).1 ≠ a) && decide ((a, b).1 ≠ cid1)) = false := by
          simp
        rw [this, if_neg (by simp), ih, lookup_cons, if_neg (fun h => h0 h.symm)]
      · by_cases ha1 : a = cid1
        · subst ha1
          rw [List.filter_cons]
          have : (decide ((a, b).1 ≠ cid0) && decide ((a, b).1 ≠ a)) = false := by
            simp
          rw [this, if_neg (by simp), ih, lookup_cons, if_neg (fun h => h1 h.symm)]
        · rw [List.filter_cons]
          have : (decide ((a, b).1 ≠ cid0) && decide ((a, b).1 ≠ cid1)) = true := by
            simp [ha0, ha1]
          rw [this, if_pos (by simp), lookup_cons, lookup_cons]
          by_cases hk : a = k
          · subst hk
            rw [if_pos rfl, if_pos rfl]
          · rw [if_neg hk, if_neg hk]
            exact ih

lemma lookup_range_map {α : Type} (f : Nat → α) :
    ∀ (m s k : Nat), lookup ((List.range' s m).map fun i => (i, f i)) k =
      if s ≤ k ∧ k < s + m then some (f k) else none := by
  intro m
  induction m with
  | zero =>
      intro s k
      rw [if_neg (by omega)]
      rfl
  | succ m ih =>
      intro s k
      rw [List.range'_succ, List.map_cons, lookup_cons]
      by_cases hk : s = k
      · subst hk
        rw [if_pos rfl, if_pos (by omega)]
      · rw [if_neg hk, ih]
        by_cases hin : s + 1 ≤ k ∧ k < s + 1 + m
        · rw [if_pos hin, if_pos (by omega)]
        · rw [if_neg hin, if_neg (by omega)]

lemma new_lookup_p2c (n k : Nat) :
    lookup (CircuitManager.new n).positionToCircuit k =
      if k < n then some k else none := by
  have h := lookup_range_map (fun i => i) n 0 k
  show lookup ((List.range n).map fun i => (i, i)) k = _
  rw [List.range_eq_range', h]
  by_cases h : k < n
  · rw [if_pos (by omega), if_pos h]
  · rw [if_neg (by omega), if_neg h]

lemma new_lookup_c2p (n k : Nat) :
    lookup (CircuitManager.new n).circuitToPosition k =
      if k < n then some [k] else none := by
  have h := lookup_range_map (fun i => [i]) n 0 k
  show lookup ((List.range n).map fun i => (i, [i])) k = _
  rw [List.range_eq_range', h]
  by_cases h : k < n
  · rw [if_pos (by omega), if_pos h]
  · rw [if_neg (by omega), if_neg h]

/-- The mutual-consistency invariant of the two maps of a
`CircuitManager` over `n` positions. -/
structure CMInv (n : Nat) (cm : CircuitManager) : Prop where
  p2c_keys : ∀ p, (lookup cm.positionToCircuit p).isSome = true ↔ p < n
  p2c_nodup : (cm.positionToCircuit.map Prod.fst).Nodup
  c2p_nodup : (cm.circuitToPosition.map Prod.fst).Nodup
  sets_nodup : ∀ cid s, (cid, s) ∈ cm.circuitToPosition → s.Nodup
  disjoint : ∀ cid1 s1 cid2 s2, (cid1, s1) ∈ cm.circuitToPosition →
    (cid2, s2) ∈ cm.circuitToPosition → cid1 ≠ cid2 → ∀ p, p ∈ s1 → p ∉ s2
  union : ∀ p, p < n ↔ ∃ cid s, (cid, s) ∈ cm.circuitToPosition ∧ p ∈ s
  consistent : ∀ p cid, lookup cm.positionToCircuit p = some cid →
    ∃ s, lookup cm.circuitToPosition cid = some s ∧ p ∈ s
  member_to_cid : ∀ cid s p, (cid, s) ∈ cm.circuitToPosition → p ∈ s →
    lookup cm.positionToCircuit p = some cid
  fresh : ∀ cid, cid ∈ cm.circuitToPosition.map Prod.fst →
    cid < cm.uuidGen.inner

lemma range_map_keys {α : Type} (f : Nat → α) (n : Nat) :
    ((List.range n).map fun i => (i, f i)).map Prod.fst = List.range n := by
  rw [List.map_map]
  exact List.map_id'' (fun _ => rfl) _

lemma cmInv_new (n : Nat) : CMInv n (CircuitManager.new n) := by
  have hkeys2 : ((CircuitManager.new n).circuitToPosition).map Prod.fst =
      List.range n := range_map_keys (fun i => [i]) n
  refine ⟨?_, ?_, ?_, ?_, ?_, ?_, ?_, ?_, ?_⟩
  · intro p
    rw [new_lookup_p2c]
    by_cases h : p < n
    · rw [if_pos h]
      simpa using h
    · rw [if_neg h]
      simpa using h
  · rw [show (CircuitManager.new n).positionToCircuit =
        (List.range n).map fun i => (i, i) from rfl,
      range_map_keys (fun i => i) n]
    exact List.nodup_range n
  · rw [hkeys2]
    exact List.nodup_range n
  · intro cid s hmem
    obtain ⟨i, _, heq⟩ := List.mem_map.mp hmem
    injection heq with h1 h2
    subst h2
    exact List.nodup_singleton _
  · intro cid1 s1 cid2 s2 h1 h2 hne p hp1 hp2
    obtain ⟨i, _, heq1⟩ := List.mem_map.mp h1
    obtain ⟨j, _, heq2⟩ := List.mem_map.mp h2
    injection heq1 with hi1 hi2
    injection heq2 with hj1 hj2
    subst hi1
    subst hj1
    subst hi2
    subst hj2
    rw [List.mem_singleton] at hp1 hp2
    exact hne (hp1.symm.trans hp2)
  · intro p
    constructor
    · intro hp
      exact ⟨p, [p], List.mem_map.mpr ⟨p, List.mem_range.mpr hp, rfl⟩,
        List.mem_singleton.mpr rfl⟩
    · rintro ⟨cid, s, hmem, hp⟩
      obtain ⟨i, hi, heq⟩ := List.mem_map.mp hmem
      injection heq with h1 h2
      subst h2
      rw [List.mem_singleton] at hp
      subst hp
      exact List.mem_range.mp hi
  · intro p cid h
    rw [new_lookup_p2c] at h
    by_cases hp : p < n
    · rw [if_pos hp] at h
      injection h with h
      subst h
      rw [new_lookup_c2p, if_pos hp]
      exact ⟨[p], rfl, List.mem_singleton.mpr rfl⟩
    · rw [if_neg hp] at h
      cases h
  · intro cid s p hmem hp
    obtain ⟨i, hi, heq⟩ := List.mem_map.mp hmem
    injection heq with h1 h2
    subst h1
    subst h2
    rw [List.mem_singleton] at hp
    subst hp
    rw [new_lookup_p2c, if_pos (List.mem_range.mp hi)]
  · intro cid hmem
    rw [hkeys2] at hmem
    exact List.mem_range.mp hmem

lemma tryCombine_spec {n : Nat} {cm : CircuitManager} (inv : CMInv n cm)
    {i j : Nat} (hi : i < n) (hj : j < n) :
    ∃ b cm', cm.tryCombine i j = some (b, cm') ∧ CMInv n cm' ∧
      (b = false ↔
        lookup cm.positionToCircuit i = lookup cm.positionToCircuit j) ∧
      (b = false → cm' = cm) := by
  obtain ⟨cid0, h0⟩ := Option.isSome_iff_exists.mp ((inv.p2c_keys i).mpr hi)
  obtain ⟨cid1, h1⟩ := Option.isSome_iff_exists.mp ((inv.p2c_keys j).mpr hj)
  by_cases hcc : cid0 = cid1
  · refine ⟨false, cm, ?_, inv, ?_, fun _ => rfl⟩
    · simp only [CircuitManager.tryCombine, h0, h1, Option.bind_eq_bind,
        Option.some_bind]
      rw [if_pos hcc]
      rfl
    · simp [h0, h1, hcc]
  · obtain ⟨c0, hc0, hic0⟩ := inv.consistent i cid0 h0
    obtain ⟨c1, hc1, hjc1⟩ := inv.consistent j cid1 h1
    have hmem0 : (cid0, c0) ∈ cm.circuitToPosition := mem_of_lookup_eq_some hc0
    have hmem1 : (cid1, c1) ∈ cm.circuitToPosition := mem_of_lookup_eq_some hc1
    have hfresh0 : cid0 < cm.uuidGen.inner :=
      inv.fresh cid0 (List.mem_map.mpr ⟨(cid0, c0), hmem0, rfl⟩)
    have hfresh1 : cid1 < cm.uuidGen.inner :=
      inv.fresh cid1 (List.mem_map.mpr ⟨(cid1, c1), hmem1, rfl⟩)
    have hs0 : ∀ s, (cid0, s) ∈ cm.circuitToPosition → s = c0 := by
      intro s hs
      have h := lookup_eq_some_of_mem inv.c2p_nodup hs
      injection h.symm.trans hc0 with h
    have hs1 : ∀ s, (cid1, s) ∈ cm.circuitToPosition → s = c1 := by
      intro s hs
      have h := lookup_eq_some_of_mem inv.c2p_nodup hs
      injection h.symm.trans hc1 with h
    have hall : (c0 ++ c1).all
        (fun pid => (lookup cm.positionToCircuit pid).isSome) = true := by
      rw [List.all_eq_true]
      intro pid hpid
      rcases List.mem_append.mp hpid with h | h
      · rw [inv.member_to_cid cid0 c0 pid hmem0 h]
        rfl
      · rw [inv.member_to_cid cid1 c1 pid hmem1 h]
        rfl
    have hmemF : ∀ cid s, (cid, s) ∈ (cm.circuitToPosition.filter fun p =>
        decide (p.1 ≠ cid0) && decide (p.1 ≠ cid1)) ↔
        (cid, s) ∈ cm.circuitToPosition ∧ cid ≠ cid0 ∧ cid ≠ cid1 := by
      intro cid s
      rw [List.mem_filter]
      simp
    have hkeys' : ∀ p,
        (lookup (reassign cm.positionToCircuit (c0 ++ c1) cm.uuidGen.inner)
          p).isSome = (lookup cm.positionToCircuit p).isSome := by
      intro p
      rw [lookup_reassign]
      cases lookup cm.positionToCircuit p
      · rfl
      · rfl
    have hmemb_cid : ∀ p, p ∈ c0 ++ c1 →
        ∃ cid, lookup cm.positionToCircuit p = some cid ∧
          (cid = cid0 ∨ cid = cid1) := by
      intro p hp
      rcases List.mem_append.mp hp with h | h
      · exact ⟨cid0, inv.member_to_cid cid0 c0 p hmem0 h, Or.inl rfl⟩
      · exact ⟨cid1, inv.member_to_cid cid1 c1 p hmem1 h, Or.inr rfl⟩
    refine ⟨true, ⟨⟨cm.uuidGen.inner + 1⟩,
      reassign cm.positionToCircuit (c0 ++ c1) cm.uuidGen.inner,
      (cm.uuidGen.inner, c0 ++ c1) :: cm.circuitToPosition.filter fun p =>
        decide (p.1 ≠ cid0) && decide (p.1 ≠ cid1)⟩, ?_, ?_, ?_, ?_⟩
    · simp only [CircuitManager.tryCombine, h0, h1, hc0, hc1,
        Option.bind_eq_bind, Option.some_bind, UuidGenerator.getNext]
      rw [if_neg hcc, if_pos hall]
      rfl
    · refine ⟨?_, ?_, ?_, ?_, ?_, ?_, ?_, ?_, ?_⟩
      · intro p
        rw [hkeys' p]
        exact inv.p2c_keys p
      · rw [keys_reassign]
        exact inv.p2c_nodup
      · rw [List.map_cons, List.nodup_cons]
        constructor
        · intro hmem
          obtain ⟨⟨cid, s⟩, hcs, hfst⟩ := List.mem_map.mp hmem
          obtain ⟨hcs', _, _⟩ := (hmemF cid s).mp hcs
          have := inv.fresh cid (List.mem_map.mpr ⟨(cid, s), hcs', rfl⟩)
          simp only at hfst
          omega
        · exact inv.c2p_nodup.sublist
            ((List.filter_sublist cm.circuitToPosition).map Prod.fst)
      · intro cid s hmem
        rcases List.mem_cons.mp hmem with heq | htail
        · injection heq with he1 he2
          subst he2
          exact List.Nodup.append (inv.sets_nodup cid0 c0 hmem0)
            (inv.sets_nodup cid1 c1 hmem1)
            (fun p hp0 hp1 =>
              inv.disjoint cid0 c0 cid1 c1 hmem0 hmem1 hcc p hp0 hp1)
        · exact inv.sets_nodup cid s ((hmemF cid s).mp htail).1
      · intro cida sa cidb sb ha hb hne p hpa hpb
        rcases List.mem_cons.mp ha with heqa | hta
        · injection heqa with ha1 ha2
          subst ha1
          subst ha2
          rcases List.mem_cons.mp hb with heqb | htb
          · injection heqb with hb1 hb2
            exact hne (hb1.symm)
          · obtain ⟨hbm, hb0, hb1⟩ := (hmemF cidb sb).mp htb
            rcases List.mem_append.mp hpa with h | h
            · exact inv.disjoint cid0 c0 cidb sb hmem0 hbm
                (fun he => hb0 he.symm) p h hpb
            · exact inv.disjoint cid1 c1 cidb sb hmem1 hbm
                (fun he => hb1 he.symm) p h hpb
        · obtain ⟨ham, ha0, ha1⟩ := (hmemF cida sa).mp hta
          rcases List.mem_cons.mp hb with heqb | htb
          · injection heqb with hb1 hb2
            subst hb2
            rcases List.mem_append.mp hpb with h | h
            · exact inv.disjoint cid0 c0 cida sa hmem0 ham
                (fun he => ha0 he.symm) p h hpa
            · exact inv.disjoint cid1 c1 cida sa hmem1 ham
                (fun he => ha1 he.symm) p h hpa
          · obtain ⟨hbm, _, _⟩ := (hmemF cidb sb).mp htb
            exact inv.disjoint cida sa cidb sb ham hbm hne p hpa hpb
      · intro p
        constructor
        · intro hp
          obtain ⟨cid, s, hmem, hps⟩ := (inv.union p).mp hp
          by_cases he0 : cid = cid0
          · subst he0
            have hsc := hs0 s hmem
            exact ⟨cm.uuidGen.inner, c0 ++ c1, List.mem_cons_self _ _,
              List.mem_append.mpr (Or.inl (hsc ▸ hps))⟩
          · by_cases he1 : cid = cid1
            · subst he1
              have hsc := hs1 s hmem
              exact ⟨cm.uuidGen.inner, c0 ++ c1, List.mem_cons_self _ _,
                List.mem_append.mpr (Or.inr (hsc ▸ hps))⟩
            · exact ⟨cid, s, List.mem_cons_of_mem _
                ((hmemF cid s).mpr ⟨hmem, he0, he1⟩), hps⟩
        · rintro ⟨cid, s, hmem, hps⟩
          rcases List.mem_cons.mp hmem with heq | htail
          · injection heq with he1 he2
            subst he2
            rcases List.mem_append.mp hps with h | h
            · exact (inv.union p).mpr ⟨cid0, c0, hmem0, h⟩
            · exact (inv.union p).mpr ⟨cid1, c1, hmem1, h⟩
          · exact (inv.union p).mpr ⟨cid, s, ((hmemF cid s).mp htail).1, hps⟩
      · intro p cid' hlk
        rw [lookup_reassign] at hlk
        cases hlp : lookup cm.positionToCircuit p with
        | none =>
            rw [hlp] at hlk
            cases hlk
        | some cid =>
            rw [hlp] at hlk
            simp only [Option.map_some'] at hlk
            by_cases hpm : p ∈ c0 ++ c1
            · rw [if_pos hpm] at hlk
              injection hlk with hlk
              subst hlk
              refine ⟨c0 ++ c1, ?_, hpm⟩
              rw [lookup_cons, if_pos rfl]
            · rw [if_neg hpm] at hlk
              injection hlk with hlk
              subst hlk
              obtain ⟨s, hls, hps⟩ := inv.consistent p cid hlp
              have hsm : (cid, s) ∈ cm.circuitToPosition :=
                mem_of_lookup_eq_some hls
              have hne0 : cid ≠ cid0 := by
                intro he
                subst he
                exact hpm (List.mem_append.mpr (Or.inl (hs0 s hsm ▸ hps)))
              have hne1 : cid ≠ cid1 := by
                intro he
                subst he
                exact hpm (List.mem_append.mpr (Or.inr (hs1 s hsm ▸ hps)))
              have hnei : cid ≠ cm.uuidGen.inner := by
                have := inv.fresh cid
                  (List.mem_map.mpr ⟨(cid, s), hsm, rfl⟩)
                omega
              refine ⟨s, ?_, hps⟩
              rw [lookup_cons, if_neg (fun he => hnei he.symm),
                lookup_filter_ne _ _ _ _ hne0 hne1]
              exact hls
      · intro cid s p hmem hps
        rcases List.mem_cons.mp hmem with heq | htail
        · injection heq with he1 he2
          subst he1
          subst he2
          obtain ⟨cid, hcid, _⟩ := hmemb_cid p hps
          rw [lookup_reassign, hcid]
          simp only [Option.map_some']
          rw [if_pos hps]
        · obtain ⟨hmem', hne0, hne1⟩ := (hmemF cid s).mp htail
          have hlk := inv.member_to_cid cid s p hmem' hps
          have hpm : p ∉ c0 ++ c1 := by
            intro hp
            obtain ⟨cid', hcid', hor⟩ := hmemb_cid p hp
            rw [hlk] at hcid'
            injection hcid' with he
            rcases hor with h | h
            · exact hne0 (he ▸ h)
            · exact hne1 (he ▸ h)
          rw [lookup_reassign, hlk]
          simp only [Option.map_some']
          rw [if_neg hpm]
      · intro cid hmem
        show cid < cm.uuidGen.inner + 1
        rw [List.map_cons, List.mem_cons] at hmem
        rcases hmem with heq | htail
        · have hce : cid = cm.uuidGen.inner := heq
          omega
        · obtain ⟨⟨cid', s⟩, hcs, hfst⟩ := List.mem_map.mp htail
          obtain ⟨hcs', _, _⟩ := (hmemF cid' s).mp hcs
          have := inv.fresh cid' (List.mem_map.mpr ⟨(cid', s), hcs', rfl⟩)
          simp only at hfst
          omega
    · rw [h0, h1]
      constructor
      · intro h
        cases h
      · intro h
        injection h with h
        exact absurd h hcc
    · intro h
      cases h

lemma runCombines_inv {n : Nat} :
    ∀ (calls : List (Nat × Nat)) (cm : CircuitManager), CMInv n cm →
      (∀ c ∈ calls, c.1 < n ∧ c.2 < n) →
      ∃ cm', runCombines cm calls = some cm' ∧ CMInv n cm'
  | [], cm, inv, _ => ⟨cm, rfl, inv⟩
  | (i, j) :: rest, cm, inv, hcalls => by
      obtain ⟨b, cm1, heq, inv1, _, _⟩ :=
        tryCombine_spec inv (hcalls (i, j) (List.mem_cons_self _ _)).1
          (hcalls (i, j) (List.mem_cons_self _ _)).2
      obtain ⟨cm', hrun, inv'⟩ := runCombines_inv rest cm1 inv1
        (fun c hc => hcalls c (List.mem_cons_of_mem _ hc))
      refine ⟨cm', ?_, inv'⟩
      simp only [runCombines, heq]
      exact hrun

end DayEight

/-- C8: for every `CircuitManager` built from `n` positions and every
sequence of `try_combine` calls with indices below `n`, every call
succeeds (no `unwrap` panic) and the two maps remain mutually
consistent: the stored circuits are pairwise disjoint, their union is
`{0, …, n−1}`, and `position_to_circuit` maps each position to the
unique circuit whose member set contains it (each direction of that
correspondence is stated); moreover a further `try_combine idx0 idx1`
returns `false` and leaves the manager unchanged exactly when the two
indices already map to the same circuit id. -/
theorem C8_circuit_manager_invariants (n : Nat) (calls : List (Nat × Nat))
    (hcalls : ∀ c ∈ calls, c.1 < n ∧ c.2 < n) :
    ∃ cm, DayEight.runCombines (DayEight.CircuitManager.new n) calls =
        some cm ∧
      ((∀ cid1 s1 cid2 s2, (cid1, s1) ∈ cm.circuitToPosition →
          (cid2, s2) ∈ cm.circuitToPosition → cid1 ≠ cid2 →
          ∀ p, p ∈ s1 → p ∉ s2) ∧
        (∀ p, p < n ↔ ∃ cid s, (cid, s) ∈ cm.circuitToPosition ∧ p ∈ s) ∧
        (∀ p cid, DayEight.lookup cm.positionToCircuit p = some cid →
          ∃ s, DayEight.lookup cm.circuitToPosition cid = some s ∧ p ∈ s) ∧
        (∀ cid s p, (cid, s) ∈ cm.circuitToPosition → p ∈ s →
          DayEight.lookup cm.positionToCircuit p = some cid)) ∧
      ∀ i j, i < n → j < n →
        ∃ b cm', cm.tryCombine i j = some (b, cm') ∧
          ((b = false ∧ cm' = cm) ↔
            DayEight.lookup cm.positionToCircuit i =
              DayEight.lookup cm.positionToCircuit j) := by
  obtain ⟨cm, hrun, inv⟩ := DayEight.runCombines_inv calls
    (DayEight.CircuitManager.new n) (DayEight.cmInv_new n) hcalls
  refine ⟨cm, hrun,
    ⟨inv.disjoint, inv.union, inv.consistent, inv.member_to_cid⟩, ?_⟩
  intro i j hi hj
  obtain ⟨b, cm', heq, _, hiff, hunch⟩ := DayEight.tryCombine_spec inv hi hj
  refine ⟨b, cm', heq, ?_, ?_⟩
  · rintro ⟨hb, _⟩
    exact hiff.mp hb
  · intro hsame
    have hb := hiff.mpr hsame
    exact ⟨hb, hunch hb⟩

/-- Witness for C8 at `n = 2` with the single call `(0, 1)`. -/
theorem C8_circuit_manager_invariants_witness :
    ∃ cm, DayEight.runCombines (DayEight.CircuitManager.new 2) [(0, 1)] =
        some cm ∧
      ((∀ cid1 s1 cid2 s2, (cid1, s1) ∈ cm.circuitToPosition →
          (cid2, s2) ∈ cm.circuitToPosition → cid1 ≠ cid2 →
          ∀ p, p ∈ s1 → p ∉ s2) ∧
        (∀ p, p < 2 ↔ ∃ cid s, (cid, s) ∈ cm.circuitToPosition ∧ p ∈ s) ∧
        (∀ p cid, DayEight.lookup cm.positionToCircuit p = some cid →
          ∃ s, DayEight.lookup cm.circuitToPosition cid = some s ∧ p ∈ s) ∧
        (∀ cid s p, (cid, s) ∈ cm.circuitToPosition → p ∈ s →
          DayEight.lookup cm.positionToCircuit p = some cid)) ∧
      ∀ i j, i < 2 → j < 2 →
        ∃ b cm', cm.tryCombine i j = some (b, cm') ∧
          ((b = false ∧ cm' = cm) ↔
            DayEight.lookup cm.positionToCircuit i =
              DayEight.lookup cm.positionToCircuit j) :=
  C8_circuit_manager_invariants 2 [(0, 1)] (by decide)

namespace Cli

/-- The `Part1`/`Part2` subcommand (`enum Part`, identical across the
day binaries and the template). -/
inductive Part where
  | part1 : Part
  | part2 : Part
deriving DecidableEq, Repr

/-- The clap-derived `struct Args`: exactly an input-file path (the
short flag `-i`) and the part subcommand. -/
structure Args where
  inputFile : String
  part : Part
deriving DecidableEq, Repr

/-- Embeds the `main` shape shared by the binaries (template and
day-eight shown in the sources): read the whole input file into memory
(`expect` with a message such as "Failed to read file" or "Cannot find
file", panicking when the file is absent), run the selected part
function on the contents, then print the answer line followed by the
"Completed in …" elapsed-time line.  The filesystem is a partial map
from paths to contents, the part functions return `Except String Nat`
(`error` embedding a panic), and a run returns the printed stdout lines
in order, or `error msg` when the program panics with `msg`. -/
def mainRun (errMsg : String) (fs : String → Option String)
    (partOne partTwo : String → Except String Nat) (args : Args)
    (elapsed : String) : Except String (List String) :=
  match fs args.inputFile with
  | none => Except.error errMsg
  | some s =>
      match (match args.part with
        | .part1 => partOne s
        | .part2 => partTwo s) with
      | Except.error e => Except.error e
      | Except.ok answer =>
          Except.ok [toString answer, "Completed in " ++ elapsed]

end Cli

namespace DayTwelve

/-- Embeds day-twelve `fn part_two(s: &str) -> usize { todo!() }`:
`todo!()` unconditionally panics with "not yet implemented". -/
def part_two (s : String) : Except String Nat :=
  Except.error "not yet implemented"

end DayTwelve

/-- C5: runs fail fast with a panic and nothing is retried, recovered
or mapped to a structured error: a missing input file makes `main`
abort with the `expect` message whichever part was selected; a part
function's panic propagates out of `main` unrecovered; a malformed
day-ten light character (anything except `#` and `.`) panics in
`From<char> for LightStatus`; and day-twelve's unimplemented
`part_two` panics (`todo!`) on every input. -/
theorem C5_fail_fast :
    (∀ errMsg fs p1 p2 (args : Cli.Args) elapsed,
      fs args.inputFile = none →
        Cli.mainRun errMsg fs p1 p2 args elapsed = Except.error errMsg) ∧
    (∀ errMsg fs p1 p2 (args : Cli.Args) elapsed s e,
      fs args.inputFile = some s →
        (match args.part with
          | Cli.Part.part1 => p1 s
          | Cli.Part.part2 => p2 s) = Except.error e →
        Cli.mainRun errMsg fs p1 p2 args elapsed = Except.error e) ∧
    (∀ c, DayTen.LightStatus.fromChar c = none ↔ (c ≠ '#' ∧ c ≠ '.')) ∧
    (∀ s, DayTwelve.part_two s = Except.error "not yet implemented") := by
  refine ⟨?_, ?_, ?_, ?_⟩
  · intro errMsg fs p1 p2 args elapsed h
    rw [Cli.mainRun, h]
  · intro errMsg fs p1 p2 args elapsed s e hs hp
    rw [Cli.mainRun, hs]
    show (match (match args.part with
      | Cli.Part.part1 => p1 s
      | Cli.Part.part2 => p2 s) with
      | Except.error e => Except.error e
      | Except.ok answer =>
          Except.ok [toString answer, "Completed in " ++ elapsed]) =
        Except.error e
    rw [hp]
  · intro c
    constructor
    · intro h
      constructor
      · intro hc
        subst hc
        exact absurd h (by decide)
      · intro hc
        subst hc
        exact absurd h (by decide)
    · intro ⟨h1, h2⟩
      rw [DayTen.LightStatus.fromChar.eq_def]
      split
      · exact absurd rfl h1
      · exact absurd rfl h2
      · rfl
  · intro s
    rfl

/-- Witness for C5: a missing file aborts with the expect message, the
day-twelve `todo!` panic propagates out of `main`, and the character
`x` is rejected by `From<char> for LightStatus`. -/
theorem C5_fail_fast_witness :
    Cli.mainRun "Cannot find file" (fun _ => none) (fun _ => Except.ok 0)
      (fun _ => Except.ok 0) ⟨"input.txt", Cli.Part.part1⟩ "1ms" =
        Except.error "Cannot find file" ∧
    Cli.mainRun "Failed to read file" (fun _ => some "x")
      (fun _ => Except.ok 0) DayTwelve.part_two
      ⟨"input.txt", Cli.Part.part2⟩ "1ms" =
        Except.error "not yet implemented" ∧
    DayTen.LightStatus.fromChar 'x' = none :=
  ⟨C5_fail_fast.1 "Cannot find file" _ _ _ _ "1ms" rfl,
   C5_fail_fast.2.1 "Failed to read file" _ _ _ _ "1ms" "x"
     "not yet implemented" rfl rfl,
   (C5_fail_fast.2.2.1 'x').mpr ⟨by decide, by decide⟩⟩

/-- C6: each day's binary is a command-line tool whose arguments are
exactly an input-file path and a `Part1`/`Part2` subcommand
(`Cli.Args`); when the file is present and the selected part computes
an answer, the run reads the whole contents into memory and prints the
answer line followed by the "Completed in …" elapsed-time line to
standard output, in that order, and nothing else. -/
theorem C6_cli_output_shape (errMsg : String) (fs : String → Option String)
    (p1 p2 : String → Except String Nat) (args : Cli.Args)
    (elapsed s : String) (answer : Nat)
    (hs : fs args.inputFile = some s)
    (hans : (match args.part with
      | Cli.Part.part1 => p1 s
      | Cli.Part.part2 => p2 s) = Except.ok answer) :
    Cli.mainRun errMsg fs p1 p2 args elapsed =
      Except.ok [toString answer, "Completed in " ++ elapsed] := by
  rw [Cli.mainRun, hs]
  show (match (match args.part with
    | Cli.Part.part1 => p1 s
    | Cli.Part.part2 => p2 s) with
    | Except.error e => Except.error e
    | Except.ok answer =>
        Except.ok [toString answer, "Completed in " ++ elapsed]) =
      Except.ok [toString answer, "Completed in " ++ elapsed]
  rw [hans]

/-- Witness for C6: a run on a one-line file prints the answer `42`
and then the elapsed-time line. -/
theorem C6_cli_output_shape_witness :
    Cli.mainRun "Failed to read file" (fun _ => some "line")
      (fun _ => Except.ok 42) (fun _ => Except.ok 0)
      ⟨"input.txt", Cli.Part.part1⟩ "1ms" =
      Except.ok [toString 42, "Completed in " ++ "1ms"] :=
  C6_cli_output_shape "Failed to read file" _ _ _ _ "1ms" "line" 42 rfl rfl

namespace DayEleven

/-- A directed graph with `Nat` node indices and an edge list, embedding
the petgraph `Graph<String, i32>` of `GraphManager` up to node weights
and edge weights (always `1`), which `part_two` never reads. -/
structure Graph where
  edges : List (Nat × Nat)

/-- The successors of `u`: targets of the edges leaving `u`. -/
def succs (g : Graph) (u : Nat) : List Nat :=
  (g.edges.filter fun e => e.1 == u).map Prod.snd

/-- Modelled from the spec: petgraph's `all_simple_paths (g, src, tgt,
0, Some maxI)` (an external dependency, not in this repository) yields
the simple paths — walks along edges repeating no node — from `src` to
`tgt` with at most `maxI` intermediate nodes.  `pathsFrom g tgt fuel
cur visited` enumerates the simple paths from `cur` to `tgt` that avoid
`visited` and contain at most `fuel + 1` nodes, so the call used below
is `pathsFrom g tgt (maxI + 1) src []`. -/
def pathsFrom (g : Graph) (tgt : Nat) : Nat → Nat → List Nat → List (List Nat)
  | 0, cur, _ => if cur = tgt then [[cur]] else []
  | fuel + 1, cur, visited =>
      if cur = tgt then [[cur]]
      else
        (succs g cur).flatMap fun v =>
          if v ∈ cur :: visited then []
          else (pathsFrom g tgt fuel v (cur :: visited)).map (cur :: ·)

/-- A spawned worker thread, embedding `std::thread::Builder::spawn`:
the Rust threads of `part_two` capture a private clone of the graph,
share no mutable state, and communicate only through `join`, so a
handle is a pure deferred computation. -/
structure JoinHandle (α : Type) where
  run : Unit → α

/-- `thread::Builder::new().name(..).spawn(..).unwrap()`. -/
def thread_spawn {α : Type} (f : Unit → α) : JoinHandle α := ⟨f⟩

/-- `JoinHandle::join(..).unwrap()` evaluates the worker. -/
def JoinHandle.join {α : Type} (h : JoinHandle α) : α := h.run ()

/-- Embeds `GraphManager::part_two` (the node-name lookups resolved to
the four indices): six workers are spawned, each counting the simple
paths of one leg with at most 17 intermediate nodes and filtering out
paths that touch the other two special nodes; all six are joined and
combined into `path0 + path1`. -/
def part_two (g : Graph) (svr dac fft out : Nat) : Nat :=
  let max_intermediate := 17
  let n_paths_svr2dac := thread_spawn fun _ =>
    ((pathsFrom g dac (max_intermediate + 1) svr []).filter fun x =>
      !(x.contains fft) && !(x.contains out)).length
  let n_paths_svr2fft := thread_spawn fun _ =>
    ((pathsFrom g fft (max_intermediate + 1) svr []).filter fun x =>
      !(x.contains dac) && !(x.contains out)).length
  let n_paths_dac2fft := thread_spawn fun _ =>
    ((pathsFrom g fft (max_intermediate + 1) dac []).filter fun x =>
      !(x.contains svr) && !(x.contains out)).length
  let n_paths_fft2dac := thread_spawn fun _ =>
    ((pathsFrom g dac (max_intermediate + 1) fft []).filter fun x =>
      !(x.contains svr) && !(x.contains out)).length
  let n_paths_dac2out := thread_spawn fun _ =>
    ((pathsFrom g out (max_intermediate + 1) dac []).filter fun x =>
      !(x.contains svr) && !(x.contains fft)).length
  let n_paths_fft2out := thread_spawn fun _ =>
    ((pathsFrom g out (max_intermediate + 1) fft []).filter fun x =>
      !(x.contains svr) && !(x.contains dac)).length
  let path0 := n_paths_svr2dac.join * n_paths_dac2fft.join *
    n_paths_fft2out.join
  let path1 := n_paths_svr2fft.join * n_paths_fft2dac.join *
    n_paths_dac2out.join
  path0 + path1

/-- The number of simple paths from `src` to `tgt` with at most `maxI`
intermediate nodes avoiding every node of `avoid`. -/
def countPaths (g : Graph) (src tgt maxI : Nat) (avoid : List Nat) : Nat :=
  ((pathsFrom g tgt (maxI + 1) src []).filter fun p =>
    avoid.all fun a => !(p.contains a)).length

/-- Written from the claim's words (for the refinement comparison): the
value obtained by computing the six leg counts sequentially and
combining them as
N(svr→dac)·N(dac→fft)·N(fft→out) + N(svr→fft)·N(fft→dac)·N(dac→out). -/
def part_two_sequential (g : Graph) (svr dac fft out : Nat) : Nat :=
  countPaths g svr dac 17 [fft, out] * countPaths g dac fft 17 [svr, out] *
      countPaths g fft out 17 [svr, dac] +
    countPaths g svr fft 17 [dac, out] * countPaths g fft dac 17 [svr, out] *
      countPaths g dac out 17 [svr, fft]

lemma filter_two_contains (l : List (List Nat)) (a b : Nat) :
    (l.filter fun x => !(x.contains a) && !(x.contains b)) =
      l.filter fun x => [a, b].all fun c => !(x.contains c) := by
  apply List.filter_congr
  intro x _
  show (!(x.contains a) && !(x.contains b)) =
    (!(x.contains a) && (!(x.contains b) && true))
  cases x.contains a
  · cases x.contains b
    · rfl
    · rfl
  · rfl

lemma mem_succs {g : Graph} {u v : Nat} : v ∈ succs g u ↔ (u, v) ∈ g.edges := by
  rw [succs]
  constructor
  · intro h
    obtain ⟨e, hmem, hsnd⟩ := List.mem_map.mp h
    obtain ⟨hin, hfst⟩ := List.mem_filter.mp hmem
    have hx : e.1 = u := by simpa using hfst
    have he : e = (u, v) := by
      obtain ⟨x, y⟩ := e
      simp only at hx hsnd
      rw [hx, hsnd]
    rw [← he]
    exact hin
  · intro h
    exact List.mem_map.mpr ⟨(u, v), List.mem_filter.mpr ⟨h, by simp⟩, rfl⟩

lemma getLast?_cons_of_ne_nil {a : Nat} {q : List Nat} (h : q ≠ []) :
    (a :: q).getLast? = q.getLast? := by
  cases q with
  | nil => exact absurd rfl h
  | cons b t => exact List.getLast?_cons_cons

lemma mem_of_getLast? : ∀ {l : List Nat} {a : Nat}, l.getLast? = some a → a ∈ l
  | [], _, h => by cases h
  | [b], a, h => by
      have hb : b = a := by
        rw [List.getLast?_singleton] at h
        injection h
      rw [List.mem_singleton, ← hb]
  | b :: c :: t, a, h => by
      rw [List.getLast?_cons_cons] at h
      exact List.mem_cons_of_mem b (mem_of_getLast? h)

lemma eq_singleton_of_head_getLast_nodup {p : List Nat} {c : Nat}
    (hh : p.head? = some c) (hl : p.getLast? = some c) (hnd : p.Nodup) :
    p = [c] := by
  cases p with
  | nil => cases hh
  | cons a q =>
      injection hh with hh
      cases q with
      | nil => rw [hh]
      | cons b t =>
          rw [getLast?_cons_of_ne_nil (List.cons_ne_nil b t)] at hl
          have hcm : c ∈ b :: t := mem_of_getLast? hl
          rw [List.nodup_cons] at hnd
          exact absurd (hh.symm ▸ hcm) hnd.1

lemma mem_pathsFrom (g : Graph) (tgt : Nat) :
    ∀ (fuel cur : Nat) (visited : List Nat), cur ∉ visited →
      ∀ p : List Nat,
      (p ∈ pathsFrom g tgt fuel cur visited ↔
        (p.head? = some cur ∧ p.getLast? = some tgt ∧
          List.Chain' (fun u v => (u, v) ∈ g.edges) p ∧ p.Nodup ∧
          (∀ x ∈ p, x ∉ visited) ∧ p.length ≤ fuel + 1))
  | 0, cur, visited, hcv, p => by
      rw [pathsFrom]
      by_cases hct : cur = tgt
      · rw [if_pos hct]
        constructor
        · intro hp
          rw [List.mem_singleton] at hp
          subst hp
          refine ⟨rfl, by rw [List.getLast?_singleton, hct], by simp,
            List.nodup_singleton _, ?_, by simp⟩
          intro x hx
          rw [List.mem_singleton] at hx
          subst hx
          exact hcv
        · rintro ⟨hh, hl, _, hnd, _, _⟩
          rw [List.mem_singleton]
          have hl' : p.getLast? = some cur := by
            rw [hct]
            exact hl
          exact eq_singleton_of_head_getLast_nodup hh hl' hnd
      · rw [if_neg hct]
        constructor
        · intro hp
          cases hp
        · rintro ⟨hh, hl, _, _, _, hlen⟩
          cases p with
          | nil => cases hh
          | cons a q =>
              injection hh with hh
              subst hh
              cases q with
              | nil =>
                  rw [List.getLast?_singleton] at hl
                  injection hl with hl
                  exact absurd hl hct
              | cons b t => simp at hlen
  | fuel + 1, cur, visited, hcv, p => by
      rw [pathsFrom]
      by_cases hct : cur = tgt
      · rw [if_pos hct]
        constructor
        · intro hp
          rw [List.mem_singleton] at hp
          subst hp
          refine ⟨rfl, by rw [List.getLast?_singleton, hct], by simp,
            List.nodup_singleton _, ?_, by simp⟩
          intro x hx
          rw [List.mem_singleton] at hx
          subst hx
          exact hcv
        · rintro ⟨hh, hl, _, hnd, _, _⟩
          rw [List.mem_singleton]
          have hl' : p.getLast? = some cur := by
            rw [hct]
            exact hl
          exact eq_singleton_of_head_getLast_nodup hh hl' hnd
      · rw [if_neg hct]
        constructor
        · intro hp
          obtain ⟨v, hv, hpv⟩ := List.mem_flatMap.mp hp
          by_cases hvc : v ∈ cur :: visited
          · rw [if_pos hvc] at hpv
            cases hpv
          · rw [if_neg hvc] at hpv
            obtain ⟨q, hq, hpq⟩ := List.mem_map.mp hpv
            subst hpq
            obtain ⟨hqh, hql, hqc, hqnd, hqvis, hqlen⟩ :=
              (mem_pathsFrom g tgt fuel v (cur :: visited) hvc q).mp hq
            have hqne : q ≠ [] := by
              intro h
              subst h
              cases hqh
            refine ⟨rfl, ?_, ?_, ?_, ?_, ?_⟩
            · rw [getLast?_cons_of_ne_nil hqne]
              exact hql
            · rw [List.chain'_cons']
              refine ⟨?_, hqc⟩
              intro b hb
              have hb' : some v = some b := hqh.symm.trans hb
              injection hb' with hb'
              rw [← hb']
              exact mem_succs.mp hv
            · rw [List.nodup_cons]
              exact ⟨fun hc =>
                absurd (List.mem_cons_self cur visited) (hqvis cur hc), hqnd⟩
            · intro x hx
              rcases List.mem_cons.mp hx with hxc | hxq
              · subst hxc
                exact hcv
              · exact fun hxv => (hqvis x hxq) (List.mem_cons_of_mem _ hxv)
            · simp only [List.length_cons]
              omega
        · rintro ⟨hh, hl, hc, hnd, hvis, hlen⟩
          cases p with
          | nil => cases hh
          | cons a q =>
              injection hh with hh
              have hh' := hh.symm
              subst hh'
              cases q with
              | nil =>
                  rw [List.getLast?_singleton] at hl
                  injection hl with hl
                  exact absurd hl hct
              | cons b t =>
                  rw [getLast?_cons_of_ne_nil (List.cons_ne_nil b t)] at hl
                  obtain ⟨hrel, hc'⟩ := List.chain'_cons'.mp hc
                  have hrelb : (cur, b) ∈ g.edges := hrel b rfl
                  rw [List.nodup_cons] at hnd
                  obtain ⟨hcq, hndq⟩ := hnd
                  have hvb : b ∉ cur :: visited := by
                    intro hb
                    rcases List.mem_cons.mp hb with h | h
                    · exact hcq (h ▸ List.mem_cons_self b t)
                    · exact (hvis b (List.mem_cons_of_mem _
                        (List.mem_cons_self b t))) h
                  refine List.mem_flatMap.mpr ⟨b, mem_succs.mpr hrelb, ?_⟩
                  rw [if_neg hvb]
                  refine List.mem_map.mpr ⟨b :: t, ?_, rfl⟩
                  apply (mem_pathsFrom g tgt fuel b (cur :: visited) hvb
                    (b :: t)).mpr
                  refine ⟨rfl, hl, hc', hndq, ?_, ?_⟩
                  · intro x hx hxcv
                    rcases List.mem_cons.mp hxcv with h | h
                    · exact hcq (h ▸ hx)
                    · exact (hvis x (List.mem_cons_of_mem _ hx)) h
                  · simp only [List.length_cons] at hlen ⊢
                    omega

end DayEleven

/-- C4: day-eleven's `part_two` joins all six spawned workers and
returns exactly
N(svr→dac)·N(dac→fft)·N(fft→out) + N(svr→fft)·N(fft→dac)·N(dac→out),
the value obtained by computing the six counts sequentially on the same
graph; and each leg count `N` enumerates precisely the simple paths —
edge-following, repetition-free, with at most 17 (in general `maxI`)
intermediate nodes — between its endpoints (the avoid-filters over the
other two special nodes are applied identically on both sides). -/
theorem C4_part_two_parallel_join (g : DayEleven.Graph)
    (svr dac fft out : Nat) :
    DayEleven.part_two g svr dac fft out =
      DayEleven.part_two_sequential g svr dac fft out ∧
    (∀ src tgt maxI (p : List Nat),
      p ∈ DayEleven.pathsFrom g tgt (maxI + 1) src [] ↔
        (p.head? = some src ∧ p.getLast? = some tgt ∧
          List.Chain' (fun u v => (u, v) ∈ g.edges) p ∧ p.Nodup ∧
          p.length ≤ maxI + 2)) := by
  constructor
  · rw [DayEleven.part_two, DayEleven.part_two_sequential]
    simp only [DayEleven.thread_spawn, DayEleven.JoinHandle.join,
      DayEleven.countPaths, DayEleven.filter_two_contains]
  · intro src tgt maxI p
    rw [DayEleven.mem_pathsFrom g tgt (maxI + 1) src []
      (List.not_mem_nil src) p]
    constructor
    · rintro ⟨h1, h2, h3, h4, _, h6⟩
      exact ⟨h1, h2, h3, h4, by omega⟩
    · rintro ⟨h1, h2, h3, h4, h6⟩
      exact ⟨h1, h2, h3, h4, fun x _ => by simp, by omega⟩
